import Mathlib

/-!
# Memory-map registry of libunwind-eh_elf (`src/eh_elf/memory_map.c`)

A shallow embedding of the memory-map registry: the global table of
executable regions (`_memory_map`), its build from `/proc/<pid>/maps` or from
a caller-supplied entry list, the handler cache (`_dl_obj_list`) filled through
the dynamic loader, and the binary-search lookup `mmap_get_entry`.

Conventions of the embedding
* pointers to loaded modules and to functions are natural numbers, `0` is `NULL`;
* C strings are `String`s; `strcmp(a, b) == 0` is equality;
* the four file-scope variables of the source form the record `State`, every
  function that touches them takes and returns a `State`;
* the dynamic loader (`dlopen`, `dlsym`) and the file system (`fopen` of a
  maps file) are parameters; the calls made to the loader are recorded in the
  ghost field `State.dl_trace`;
* heap management (`malloc`, `free`, `realloc`) has no counterpart: an array is
  the list of its cells.
-/

namespace EhElf

/-! ## Data model -/

/-- Modelled from the spec: `memory_map.h` is absent; `mmap_entry_t` is the Region
of the data model, with exactly the fields `memory_map.c` reads and writes. -/
structure mmap_entry_t where
  id : Nat
  offset : Nat
  beg_ip : Nat
  end_ip : Nat
  object_name : String
  eh_elf : Nat
  fde_func : Nat
deriving DecidableEq, Repr

/-- Modelled from the spec: `memory_map.h` is absent; one node of the handler cache
`dl_obj_list_t` (the `next` pointer is the tail of the list holding the node). -/
structure dl_obj_list_t where
  object_name : String
  eh_elf : Nat
  fde_func : Nat
deriving DecidableEq, Repr

/-- Modelled from the spec: the libunwind header declaring `unw_mmap_entry_t` is absent;
a caller-supplied entry `{begin, end, file_offset, name}` with the fields
`mmap_init_mmap` reads. -/
structure unw_mmap_entry_t where
  beg_ip : Nat
  end_ip : Nat
  offset : Nat
  object_name : String
deriving DecidableEq, Repr

/-- One line of a maps file as the two `sscanf` calls of `mmap_init_procdir` decode it:
`begin-end`, the third permission character, the file offset, the inode and the path.
`path` is the token `%s` reads, whatever its length; the source stores it in the local
buffer `char path[256]` with no field width, and `procdir_loop_overruns` tells when that
write runs past the buffer. -/
structure maps_line where
  ip_beg : Nat
  ip_end : Nat
  is_x : Char
  offset : Nat
  inode : Nat
  path : String
deriving DecidableEq, Repr

/-- What an opened maps file delivers: the number of newline characters seen by the
first pass (`nb_entries`) and the lines `getline` returns in the second pass. The file
is generated on every read, so the two need not agree. -/
structure maps_file where
  nb_entries : Nat
  lines : List maps_line
deriving DecidableEq, Repr

/-- The dynamic loader: `dlopen file` and `dlsym handle symbol`, `0` for `NULL`. -/
structure Loader where
  dlopen : String → Nat
  dlsym : Nat → String → Nat

/-- A call made to the dynamic loader. -/
inductive dl_call where
  | dlopen (file : String)
  | dlsym (handle : Nat) (symbol : String)
  | dlclose (handle : Nat)
  | dlinfo (handle : Nat)
deriving DecidableEq, Repr

/-- The file-scope variables of `memory_map.c`, and the trace of loader calls. -/
structure State where
  _memory_map : List mmap_entry_t
  _memory_map_size : Nat
  _mmap_init_done : Bool
  _dl_obj_list : List dl_obj_list_t
  dl_trace : List dl_call
deriving DecidableEq, Repr

/-- The state at program start: `NULL`, `0`, `0`, `NULL`. -/
def State.initial : State :=
  { _memory_map := [], _memory_map_size := 0, _mmap_init_done := false,
    _dl_obj_list := [], dl_trace := [] }

/-- A cell of `calloc`ed memory: every field zero, the name pointer `NULL`. -/
def zero_entry : mmap_entry_t :=
  { id := 0, offset := 0, beg_ip := 0, end_ip := 0, object_name := "",
    eh_elf := 0, fde_func := 0 }

/-- `calloc(count, sizeof(mmap_entry_t))`. -/
def calloc (count : Nat) : List mmap_entry_t := List.replicate count zero_entry

/-- The width of `uintptr_t`. -/
def UINTPTR_MOD : Nat := 2 ^ 64

/-- The cast `(int)count` of a `size_t`: the low 32 bits, read as two's complement. -/
def int_of_size_t (count : Nat) : Int :=
  if count % 2 ^ 32 < 2 ^ 31 then ((count % 2 ^ 32 : Nat) : Int)
  else ((count % 2 ^ 32 : Nat) : Int) - 2 ^ 32

/-- The largest `int`. -/
def INT_MAX : Nat := 2147483647

/-- The character `s[0]` of a C string: the terminating NUL when `s` is empty. -/
def first_char (s : String) : Char :=
  match s.data with
  | [] => Char.ofNat 0
  | c :: _ => c

/-- POSIX `basename` of `<libgen.h>`: `"."` for the empty path, `"/"` for a path of
slashes only, else the last component, trailing slashes ignored. -/
def basename (path : String) : String :=
  if path.data = [] then "."
  else
    let stripped := (path.data.reverse.dropWhile (fun c => c == '/')).reverse
    if stripped = [] then "/"
    else String.mk (stripped.reverse.takeWhile (fun c => c != '/')).reverse

/-! ## Ordering the table -/

/-- The comparator handed to `qsort`. -/
def compare_mmap_entry (e1 e2 : mmap_entry_t) : Int :=
  if e1.beg_ip < e2.beg_ip then -1
  else if e1.beg_ip > e2.beg_ip then 1
  else 0

/-- C library `qsort`: the array is rearranged into an order in which the comparator is
never positive from an earlier to a later cell. The C standard fixes neither the
algorithm nor the order of cells that compare equal; insertion sort stands for it, and
the development uses only that the result is an ordered permutation. -/
def qsort (compar : mmap_entry_t → mmap_entry_t → Int) (base : List mmap_entry_t) :
    List mmap_entry_t :=
  List.insertionSort (fun a b => compar a b ≤ 0) base

/-- The loop `for pos: entries[pos].id = pos` of `mmap_order_entries`. -/
def assign_ids : List mmap_entry_t → Nat → List mmap_entry_t
  | [], _ => []
  | e :: es, pos => { e with id := pos } :: assign_ids es (pos + 1)

/-- Source `mmap_order_entries`: sort by `beg_ip`, renumber, return 0. -/
def mmap_order_entries (entries : List mmap_entry_t) : Int × List mmap_entry_t :=
  (0, assign_ids (qsort compare_mmap_entry entries) 0)

/-! ## The handler cache -/

/-- The `while(cur_elt != NULL)` scan of `mmap_dlopen_eh_elf`. -/
def find_dl_obj (obj_name : String) : List dl_obj_list_t → Option dl_obj_list_t
  | [] => none
  | cur_elt :: next =>
    if cur_elt.object_name = obj_name then some cur_elt else find_dl_obj obj_name next

/-- Append a loader call to the trace. -/
def State.log (s : State) (c : dl_call) : State :=
  { s with dl_trace := s.dl_trace ++ [c] }

/-- Source `mmap_dlopen_eh_elf`: fetch the cache node of `obj_name`, or load
`basename(obj_name).eh_elf.so`, resolve `_eh_elf` in it and prepend a new node. -/
def mmap_dlopen_eh_elf (L : Loader) (obj_name : String) (s : State) :
    Option dl_obj_list_t × State :=
  match find_dl_obj obj_name s._dl_obj_list with
  | some cur_elt => (some cur_elt, s)
  | none =>
    let eh_elf_path := basename obj_name ++ ".eh_elf.so"
    let eh_elf := L.dlopen eh_elf_path
    let s1 := s.log (.dlopen eh_elf_path)
    if eh_elf = 0 then (none, s1)
    else
      let fde_func := L.dlsym eh_elf "_eh_elf"
      let s2 := s1.log (.dlsym eh_elf "_eh_elf")
      if fde_func = 0 then (none, s2.log (.dlclose eh_elf))
      else
        let new_elt : dl_obj_list_t :=
          { object_name := obj_name, eh_elf := eh_elf, fde_func := fde_func }
        let s3 := s2.log (.dlinfo eh_elf)
        (some new_elt, { s3 with _dl_obj_list := new_elt :: s._dl_obj_list })

/-- Source `mmap_dlopen_eh_elfs`: resolve the handler of every entry in turn and store it
in the entry; stop with -1 at the first failure, the entries before it already updated.
Returns the code, the array and the state. -/
def mmap_dlopen_eh_elfs (L : Loader) :
    List mmap_entry_t → State → Int × List mmap_entry_t × State
  | [], s => (0, [], s)
  | e :: es, s =>
    match mmap_dlopen_eh_elf L e.object_name s with
    | (none, s1) => (-1, e :: es, s1)
    | (some eh_elf_elt, s1) =>
      let r := mmap_dlopen_eh_elfs L es s1
      (r.1, { e with eh_elf := eh_elf_elt.eh_elf, fde_func := eh_elf_elt.fde_func } :: r.2.1,
        r.2.2)

/-! ## Building and clearing the table -/

/-- Source `mmap_clear`: only `_mmap_init_done` is reset; the table pointer and size keep
their (stale) values and the cache teardown is commented out. The source also frees every
`object_name` and the array itself and leaves `_memory_map` pointing to the freed array;
the embedding has no heap, so it does not show that a second `mmap_clear` on the same
array (a clear or an init after a clear, after a `-2` return, or after a `-1` return that
followed a build) frees that memory again. -/
def mmap_clear (s : State) : State :=
  { s with _mmap_init_done := false }

/-- The tail shared by both builds: shrink the array to `size` cells, order it, resolve
the handlers, and only then set `_mmap_init_done`. -/
def finish_init (L : Loader) (mem : List mmap_entry_t) (size : Nat) (s : State) :
    Int × State :=
  let shrunk := mem.take size
  let s1 := { s with _memory_map := shrunk, _memory_map_size := size }
  let o := mmap_order_entries shrunk
  let s2 := { s1 with _memory_map := o.2 }
  if o.1 < 0 then (-3, s2)
  else
    let d := mmap_dlopen_eh_elfs L o.2 s2
    let s3 := { d.2.2 with _memory_map := d.2.1 }
    if d.1 < 0 then (-4, s3)
    else (0, { s3 with _mmap_init_done := true })

/-- The exclusion tests of the `getline` loop: inode zero, or not executable. -/
def maps_line.retained (l : maps_line) : Bool :=
  !(l.inode = 0) && !(l.is_x != 'x')

/-- The cell written for a retained line at table index `cur_entry`: `id`, `offset`
(`ip_beg - offset` in `uintptr_t` arithmetic), `beg_ip`, `end_ip` and `object_name` are
assigned, the handler fields keep the zero `calloc` left there. -/
def maps_line.to_entry (l : maps_line) (cur_entry : Nat) : mmap_entry_t :=
  { id := cur_entry,
    offset := (l.ip_beg + UINTPTR_MOD - l.offset % UINTPTR_MOD) % UINTPTR_MOD,
    beg_ip := l.ip_beg, end_ip := l.ip_end, object_name := l.path,
    eh_elf := 0, fde_func := 0 }

/-- The `getline` loop of `mmap_init_procdir` over the lines still to read, with the
array and `cur_entry`. `error` is the early `return -2`, with the array as written so
far; `ok` is end of file, with the array and `cur_entry`. -/
def procdir_loop (nb_entries : Nat) :
    List maps_line → List mmap_entry_t → Nat →
      Except (List mmap_entry_t) (List mmap_entry_t × Nat)
  | [], mem, cur_entry => .ok (mem, cur_entry)
  | l :: ls, mem, cur_entry =>
    if cur_entry ≥ nb_entries then .error mem
    else if l.inode = 0 then procdir_loop nb_entries ls mem cur_entry
    else if l.is_x ≠ 'x' then procdir_loop nb_entries ls mem cur_entry
    else procdir_loop nb_entries ls (mem.set cur_entry (l.to_entry cur_entry)) (cur_entry + 1)

/-- Source `mmap_init_procdir`; `fopen` maps a path to the content of the maps file,
`none` when it cannot be opened. -/
def mmap_init_procdir (fopen : String → Option maps_file) (L : Loader) (procdir : String)
    (s : State) : Int × State :=
  let s0 := mmap_clear s
  match fopen (procdir ++ "/maps") with
  | none => (-1, s0)
  | some f =>
    let s1 := { s0 with _memory_map := calloc f.nb_entries, _memory_map_size := f.nb_entries }
    match procdir_loop f.nb_entries f.lines s1._memory_map 0 with
    | .error mem => (-2, mmap_clear { s1 with _memory_map := mem })
    | .ok (mem, cur_entry) => finish_init L mem cur_entry s1

/-- Source `mmap_init_local`. -/
def mmap_init_local (fopen : String → Option maps_file) (L : Loader) (s : State) :
    Int × State :=
  mmap_init_procdir fopen L "/proc/self/" s

/-- Source `mmap_init_pid`; `%d` prints the decimal form of `pid`. -/
def mmap_init_pid (fopen : String → Option maps_file) (L : Loader) (pid : Int)
    (s : State) : Int × State :=
  mmap_init_procdir fopen L ("/proc/" ++ toString pid ++ "/") s

/-- The cell written for a supplied entry read at position `pos`: `id`, `offset`, `beg_ip`,
`end_ip` and `object_name` are assigned, the handler fields keep the zero `calloc` left
there. -/
def unw_mmap_entry_t.to_entry (e : unw_mmap_entry_t) (pos : Nat) : mmap_entry_t :=
  { id := pos, offset := e.offset, beg_ip := e.beg_ip, end_ip := e.end_ip,
    object_name := e.object_name, eh_elf := 0, fde_func := 0 }

/-- The test `entries[pos].object_name[0] == '['`. -/
def unw_mmap_entry_t.special (e : unw_mmap_entry_t) : Bool :=
  first_char e.object_name == '['

/-- The `for` loop of `mmap_init_mmap` over the entries still to visit, with `pos`, the
array and `mmap_pos`; returns the array and `mmap_pos` at loop exit. -/
def init_mmap_loop :
    List unw_mmap_entry_t → Nat → List mmap_entry_t → Nat → List mmap_entry_t × Nat
  | [], _, mem, mmap_pos => (mem, mmap_pos)
  | e :: es, pos, mem, mmap_pos =>
    if e.special then init_mmap_loop es (pos + 1) mem mmap_pos
    else init_mmap_loop es (pos + 1) (mem.set mmap_pos (e.to_entry pos)) (mmap_pos + 1)

/-- Source `mmap_init_mmap`; `count` is the length of `entries`, and the loop visits the
positions below `(int)count`. -/
def mmap_init_mmap (L : Loader) (entries : List unw_mmap_entry_t) (s : State) :
    Int × State :=
  let count := entries.length
  let s0 := mmap_clear s
  let s1 := { s0 with _memory_map := calloc count, _memory_map_size := count }
  let r := init_mmap_loop (entries.take (int_of_size_t count).toNat) 0 s1._memory_map 0
  finish_init L r.1 r.2 s1

/-! ## Lookup -/

/-- The comparator handed to `bsearch`. -/
def bsearch_compar_mmap_entry (key : Nat) (mmap_elt : mmap_entry_t) : Int :=
  if mmap_elt.beg_ip ≤ key ∧ key < mmap_elt.end_ip then 0
  else if key < mmap_elt.beg_ip then -1
  else 1

/-- The loop of C library `bsearch` on the index window `[l, u)`: probe the middle cell,
go left on a negative comparison, right on a positive one. `fuel` bounds the number of
probes; a window of width at most `fuel` is always exhausted before the fuel. -/
def bsearch_loop (compar : Nat → mmap_entry_t → Int) (key : Nat) (base : List mmap_entry_t) :
    Nat → Nat → Nat → Option mmap_entry_t
  | 0, _, _ => none
  | fuel + 1, l, u =>
    if l < u then
      let idx := (l + u) / 2
      match base[idx]? with
      | none => none
      | some p =>
        let comparison := compar key p
        if comparison < 0 then bsearch_loop compar key base fuel l idx
        else if comparison > 0 then bsearch_loop compar key base fuel (idx + 1) u
        else some p
    else none

/-- C library `bsearch(key, base, nmemb, size, compar)`. -/
def bsearch (compar : Nat → mmap_entry_t → Int) (key : Nat) (base : List mmap_entry_t)
    (nmemb : Nat) : Option mmap_entry_t :=
  bsearch_loop compar key base nmemb 0 nmemb

/-- Source `mmap_get_entry`: `none` (NULL) before init, else the binary search. -/
def mmap_get_entry (s : State) (ip : Nat) : Option mmap_entry_t :=
  if !s._mmap_init_done then none
  else bsearch bsearch_compar_mmap_entry ip s._memory_map s._memory_map_size

/-! ## Vocabulary of the properties -/

/-- What identifies a region of the table: begin, end, load offset and object name. -/
def mmap_entry_t.region (e : mmap_entry_t) : Nat × Nat × Nat × String :=
  (e.beg_ip, e.end_ip, e.offset, e.object_name)

/-- The region a supplied entry stands for. -/
def unw_mmap_entry_t.region (e : unw_mmap_entry_t) : Nat × Nat × Nat × String :=
  (e.beg_ip, e.end_ip, e.offset, e.object_name)

/-- The region a maps line stands for. -/
def maps_line.region (l : maps_line) : Nat × Nat × Nat × String :=
  (l.ip_beg, l.ip_end, (l.ip_beg + UINTPTR_MOD - l.offset % UINTPTR_MOD) % UINTPTR_MOD, l.path)

/-- The address `a` lies in the half-open range `[b, e)`. -/
def in_range (b e a : Nat) : Prop := b ≤ a ∧ a < e

instance (b e a : Nat) : Decidable (in_range b e a) := by
  unfold in_range; infer_instance

/-- The ranges `[b1, e1)` and `[b2, e2)` share no address. -/
def ranges_disjoint (b1 e1 b2 e2 : Nat) : Prop :=
  ∀ a, ¬ (in_range b1 e1 a ∧ in_range b2 e2 a)

/-- The loader can produce a handler for the object `obj_name`: the companion module
opens and exports the entry symbol. -/
def Loader.loads (L : Loader) (obj_name : String) : Prop :=
  L.dlopen (basename obj_name ++ ".eh_elf.so") ≠ 0 ∧
    L.dlsym (L.dlopen (basename obj_name ++ ".eh_elf.so")) "_eh_elf" ≠ 0

instance (L : Loader) (obj_name : String) : Decidable (L.loads obj_name) := by
  unfold Loader.loads; infer_instance

/-- The supplied entries `mmap_init_mmap` keeps: those not named `[...`. -/
def retained_entries (entries : List unw_mmap_entry_t) : List unw_mmap_entry_t :=
  entries.filter (fun e => !e.special)

/-- The maps lines `mmap_init_procdir` keeps: inode non-zero and executable. -/
def retained_lines (lines : List maps_line) : List maps_line :=
  lines.filter maps_line.retained

/-- The entries the `for` loop of `mmap_init_mmap` visits: the positions below
`(int)count`, which are all of them when `count` fits an `int`. -/
def visited_entries (entries : List unw_mmap_entry_t) : List unw_mmap_entry_t :=
  entries.take (int_of_size_t entries.length).toNat

/-- An operation on the registry, each with the environment it runs in. -/
inductive Op where
  | init_local (fopen : String → Option maps_file) (L : Loader)
  | init_pid (fopen : String → Option maps_file) (L : Loader) (pid : Int)
  | init_procdir (fopen : String → Option maps_file) (L : Loader) (procdir : String)
  | init_mmap (L : Loader) (entries : List unw_mmap_entry_t)
  | resolve (L : Loader) (obj_name : String)
  | clear

/-- The state after one operation. -/
def Op.run : Op → State → State
  | .init_local fopen L, s => (mmap_init_local fopen L s).2
  | .init_pid fopen L pid, s => (mmap_init_pid fopen L pid s).2
  | .init_procdir fopen L procdir, s => (mmap_init_procdir fopen L procdir s).2
  | .init_mmap L entries, s => (mmap_init_mmap L entries s).2
  | .resolve L obj_name, s => (mmap_dlopen_eh_elf L obj_name s).2
  | .clear, s => mmap_clear s

/-- The code an operation returns: that of the init it runs, `none` for the operations
that return no code. -/
def Op.code : Op → State → Option Int
  | .init_local fopen L, s => some (mmap_init_local fopen L s).1
  | .init_pid fopen L pid, s => some (mmap_init_pid fopen L pid s).1
  | .init_procdir fopen L procdir, s => some (mmap_init_procdir fopen L procdir s).1
  | .init_mmap L entries, s => some (mmap_init_mmap L entries s).1
  | .resolve _ _, _ => none
  | .clear, _ => none

/-- No operation of the sequence, run from `s`, is an init that returns 0. -/
def no_init_succeeds : List Op → State → Prop
  | [], _ => True
  | op :: ops, s => op.code s ≠ some 0 ∧ no_init_succeeds ops (op.run s)

/-- The state after a sequence of operations, first to last. -/
def run_ops : List Op → State → State
  | [], s => s
  | op :: ops, s => run_ops ops (op.run s)

/-- The module handles a trace of loader calls made with `L` leaves open, one occurrence
per reference: a `dlopen` that succeeds adds the handle it returns, a `dlclose` removes one
occurrence of its handle. -/
def open_modules (L : Loader) (trace : List dl_call) : List Nat :=
  trace.foldl (fun acc c =>
    match c with
    | .dlopen file => if L.dlopen file = 0 then acc else L.dlopen file :: acc
    | .dlclose handle => acc.erase handle
    | _ => acc) []

/-- What every init promises about its result: the code is 0 or negative, it is 0 exactly
when `_mmap_init_done` is set afterwards, and after a negative code every lookup returns
`NULL`. -/
def init_contract (r : Int × State) : Prop :=
  (r.1 = 0 ∨ r.1 < 0) ∧ (r.1 = 0 ↔ r.2._mmap_init_done = true) ∧
    (r.1 < 0 → ∀ a, mmap_get_entry r.2 a = none)

/-- The table indices the `getline` loop of `mmap_init_procdir` writes to, in order: the
value of `cur_entry` at each pass that reaches the assignments. Same control flow as
`procdir_loop`. -/
def procdir_loop_writes (nb_entries : Nat) : List maps_line → Nat → List Nat
  | [], _ => []
  | l :: ls, cur_entry =>
    if cur_entry ≥ nb_entries then []
    else if l.inode = 0 then procdir_loop_writes nb_entries ls cur_entry
    else if l.is_x ≠ 'x' then procdir_loop_writes nb_entries ls cur_entry
    else cur_entry :: procdir_loop_writes nb_entries ls (cur_entry + 1)

/-- The pairs `(mmap_pos, pos)` at which the `for` loop of `mmap_init_mmap` writes
`_memory_map[mmap_pos]` from `entries[pos]`, in order. Same control flow as
`init_mmap_loop`. -/
def init_mmap_loop_writes : List unw_mmap_entry_t → Nat → Nat → List (Nat × Nat)
  | [], _, _ => []
  | e :: es, pos, mmap_pos =>
    if e.special then init_mmap_loop_writes es (pos + 1) mmap_pos
    else (mmap_pos, pos) :: init_mmap_loop_writes es (pos + 1) (mmap_pos + 1)

/-- The size of the local buffer `char path[256]` of `mmap_init_procdir`. -/
def PATH_BUF_SIZE : Nat := 256

/-- Whether the `getline` loop of `mmap_init_procdir` writes past `path[256]`: the second
`sscanf` of each pass copies the path token and its terminating NUL into the buffer with
no field width, before the `cur_entry` test, so a token of `PATH_BUF_SIZE` characters or
more overruns it. Same control flow as `procdir_loop`. -/
def procdir_loop_overruns (nb_entries : Nat) : List maps_line → Nat → Bool
  | [], _ => false
  | l :: ls, cur_entry =>
    if PATH_BUF_SIZE ≤ l.path.length then true
    else if cur_entry ≥ nb_entries then false
    else if l.inode = 0 then procdir_loop_overruns nb_entries ls cur_entry
    else if l.is_x ≠ 'x' then procdir_loop_overruns nb_entries ls cur_entry
    else procdir_loop_overruns nb_entries ls (cur_entry + 1)

/-- A run of `mmap_init_procdir` with the path buffer taken into account: `none` when the
loop writes past `path[256]`, from where on the behaviour of the source is undefined, else
what `mmap_init_procdir` returns. -/
def mmap_init_procdir_path_checked (fopen : String → Option maps_file) (L : Loader)
    (procdir : String) (s : State) : Option (Int × State) :=
  match fopen (procdir ++ "/maps") with
  | none => some (mmap_init_procdir fopen L procdir s)
  | some f =>
    if procdir_loop_overruns f.nb_entries f.lines 0 then none
    else some (mmap_init_procdir fopen L procdir s)

end EhElf

/-! ## Sample inputs -/

namespace EhElf

/-- A loader that finds the companion modules of `/bin/a` and `/lib/b` and no other. -/
def sample_loader : Loader :=
  { dlopen := fun file =>
      if file = "a.eh_elf.so" then 7 else if file = "b.eh_elf.so" then 8 else 0,
    dlsym := fun handle symbol => if symbol = "_eh_elf" then handle + 100 else 0 }

/-- A loader that finds no module at all. -/
def empty_loader : Loader :=
  { dlopen := fun _ => 0, dlsym := fun _ _ => 0 }

/-- A loader whose modules all open, with handle 9, and export no symbol. -/
def symbol_less_loader : Loader :=
  { dlopen := fun _ => 9, dlsym := fun _ _ => 0 }

/-- A loader whose modules all open with handle 9 and export every symbol at 5. -/
def uniform_loader : Loader :=
  { dlopen := fun _ => 9, dlsym := fun _ _ => 5 }

/-- Two object mappings, out of address order, and a `[stack]` entry between them. -/
def sample_entries : List unw_mmap_entry_t :=
  [⟨0x3000, 0x4000, 0x100, "/lib/b"⟩, ⟨0x7000, 0x8000, 0, "[stack]"⟩,
    ⟨0x1000, 0x2000, 0, "/bin/a"⟩]

/-- Three distinct objects, the second without a companion module. -/
def sample_entries_missing : List unw_mmap_entry_t :=
  [⟨0x1000, 0x2000, 0, "/bin/a"⟩, ⟨0x5000, 0x6000, 0, "/lib/c"⟩,
    ⟨0x3000, 0x4000, 0, "/lib/b"⟩]

/-- Two object mappings that begin at the same address. -/
def sample_entries_same_begin : List unw_mmap_entry_t :=
  [⟨0x1000, 0x2000, 0, "/bin/a"⟩, ⟨0x1000, 0x3000, 0, "/lib/b"⟩]

/-- Two object mappings whose ranges overlap on `[0x2000, 0x3000)`. -/
def sample_entries_overlap : List unw_mmap_entry_t :=
  [⟨0x1000, 0x3000, 0, "/bin/a"⟩, ⟨0x2000, 0x4000, 0, "/lib/b"⟩]

/-- A maps file of three lines, counted as three: two executable file mappings around an
anonymous one. -/
def sample_maps : maps_file :=
  { nb_entries := 3,
    lines := [⟨0x3000, 0x4000, 'x', 0x1000, 42, "/lib/b"⟩, ⟨0x7000, 0x8000, 'x', 0, 0, ""⟩,
      ⟨0x1000, 0x2000, 'x', 0, 41, "/bin/a"⟩] }

/-- A maps file of three executable file mappings, the second of an object without a
companion module. -/
def sample_maps_missing : maps_file :=
  { nb_entries := 3,
    lines := [⟨0x1000, 0x2000, 'x', 0, 41, "/bin/a"⟩, ⟨0x5000, 0x6000, 'x', 0, 43, "/lib/c"⟩,
      ⟨0x3000, 0x4000, 'x', 0, 42, "/lib/b"⟩] }

/-- A maps file counted as one line that delivers two: an anonymous mapping, then an
executable file mapping. -/
def sample_maps_grown : maps_file :=
  { nb_entries := 1,
    lines := [⟨0x7000, 0x8000, '-', 0, 0, ""⟩, ⟨0x1000, 0x2000, 'x', 0, 41, "/bin/a"⟩] }

/-- A maps file counted as one line that delivers two executable file mappings. -/
def sample_maps_overfull : maps_file :=
  { nb_entries := 1,
    lines := [⟨0x1000, 0x2000, 'x', 0, 41, "/bin/a"⟩, ⟨0x3000, 0x4000, 'x', 0, 42, "/lib/b"⟩] }

/-- A path of 307 characters: a slash and 306 times `a`. -/
def sample_long_path : String := String.mk ('/' :: List.replicate 306 'a')

/-- A maps file of one line, counted as one: an executable file mapping whose path has
307 characters. -/
def sample_maps_long_path : maps_file :=
  { nb_entries := 1, lines := [⟨0x1000, 0x2000, 'x', 0, 41, sample_long_path⟩] }

/-- A supplied list of `2 ^ 31` entries, one more than the largest `int`, each the mapping
of `/bin/a`. -/
def sample_entries_huge : List unw_mmap_entry_t :=
  List.replicate 2147483648 ⟨0x1000, 0x2000, 0, "/bin/a"⟩

/-- A file system in which every maps file reads as `f`. -/
def fopen_const (f : maps_file) : String → Option maps_file := fun _ => some f

end EhElf

/-! ## The two filling loops -/

namespace EhElf

theorem unw_region_to_entry (e : unw_mmap_entry_t) (pos : Nat) :
    (e.to_entry pos).region = e.region := rfl

theorem line_region_to_entry (l : maps_line) (cur : Nat) :
    (l.to_entry cur).region = l.region := rfl

theorem take_succ_set_eq (mem : List mmap_entry_t) (k : Nat) (x : mmap_entry_t)
    (hk : k < mem.length) : (mem.set k x).take (k + 1) = mem.take k ++ [x] := by
  induction mem generalizing k with
  | nil => simp at hk
  | cons a as ih =>
    cases k with
    | zero => simp
    | succ k =>
      have hk2 : k < as.length := by simpa using hk
      simp [List.set_cons_succ, List.take_succ_cons, ih k hk2]

/-- The supplied-entry loop keeps the array length, advances `mmap_pos` by the number of
retained entries and leaves their regions, in input order, behind the cells already
written. -/
theorem init_mmap_loop_spec (es : List unw_mmap_entry_t) (pos : Nat)
    (mem : List mmap_entry_t) (mp : Nat)
    (h : mp + (retained_entries es).length ≤ mem.length) :
    (init_mmap_loop es pos mem mp).1.length = mem.length ∧
    (init_mmap_loop es pos mem mp).2 = mp + (retained_entries es).length ∧
    ((init_mmap_loop es pos mem mp).1.take (init_mmap_loop es pos mem mp).2).map
        mmap_entry_t.region =
      (mem.take mp).map mmap_entry_t.region ++
        (retained_entries es).map unw_mmap_entry_t.region := by
  induction es generalizing pos mem mp with
  | nil => simp [init_mmap_loop, retained_entries]
  | cons e es ih =>
    by_cases hs : e.special = true
    · have hr : retained_entries (e :: es) = retained_entries es := by
        simp [retained_entries, hs]
      rw [hr] at h ⊢
      simp only [init_mmap_loop, hs, if_true]
      exact ih (pos + 1) mem mp h
    · have hr : retained_entries (e :: es) = e :: retained_entries es := by
        simp [retained_entries, hs]
      rw [hr] at h ⊢
      simp only [List.length_cons] at h
      have hlt : mp < mem.length := by omega
      have h2 : mp + 1 + (retained_entries es).length ≤ (mem.set mp (e.to_entry pos)).length := by
        simp; omega
      obtain ⟨i1, i2, i3⟩ := ih (pos + 1) (mem.set mp (e.to_entry pos)) (mp + 1) h2
      simp only [init_mmap_loop, hs, Bool.false_eq_true, if_false]
      refine ⟨by simpa using i1, by rw [i2]; simp; omega, ?_⟩
      rw [i3, take_succ_set_eq mem mp _ hlt]
      simp [unw_region_to_entry]

theorem retained_lines_cons_of_not (l : maps_line) (ls : List maps_line)
    (h : l.retained = false) : retained_lines (l :: ls) = retained_lines ls := by
  simp [retained_lines, h]

theorem retained_lines_cons_of (l : maps_line) (ls : List maps_line)
    (h : l.retained = true) : retained_lines (l :: ls) = l :: retained_lines ls := by
  simp [retained_lines, h]

theorem procdir_loop_cons_skip (n : Nat) (l : maps_line) (ls : List maps_line)
    (mem : List mmap_entry_t) (cur : Nat) (hc : cur < n) (h : l.retained = false) :
    procdir_loop n (l :: ls) mem cur = procdir_loop n ls mem cur := by
  have hc2 : ¬ cur ≥ n := by omega
  simp only [procdir_loop, hc2, if_false]
  simp only [maps_line.retained, Bool.and_eq_false_iff, Bool.not_eq_false',
    decide_eq_true_eq, bne_iff_ne, ne_eq] at h
  by_cases hi : l.inode = 0
  · simp [hi]
  · rcases h with h | h
    · exact absurd h hi
    · simp [hi, h]

theorem procdir_loop_cons_keep (n : Nat) (l : maps_line) (ls : List maps_line)
    (mem : List mmap_entry_t) (cur : Nat) (hc : cur < n) (h : l.retained = true) :
    procdir_loop n (l :: ls) mem cur =
      procdir_loop n ls (mem.set cur (l.to_entry cur)) (cur + 1) := by
  have hc2 : ¬ cur ≥ n := by omega
  simp only [maps_line.retained, Bool.and_eq_true, Bool.not_eq_true', decide_eq_false_iff_not,
    bne_eq_false_iff_eq] at h
  simp [procdir_loop, hc2, h.1, h.2]

theorem procdir_loop_cons_stop (n : Nat) (l : maps_line) (ls : List maps_line)
    (mem : List mmap_entry_t) (cur : Nat) (hc : n ≤ cur) :
    procdir_loop n (l :: ls) mem cur = .error mem := by
  simp [procdir_loop, hc]

/-- The maps loop, when it reaches end of file, keeps the array length, advances
`cur_entry` by the number of retained lines, stays within the array and leaves the
regions of the retained lines, in input order, behind the cells already written. -/
theorem procdir_loop_spec (n : Nat) (ls : List maps_line) (mem : List mmap_entry_t)
    (cur : Nat) (mem2 : List mmap_entry_t) (cur2 : Nat) (hn : mem.length = n)
    (hcur : cur ≤ n) (h : procdir_loop n ls mem cur = .ok (mem2, cur2)) :
    mem2.length = n ∧ cur2 = cur + (retained_lines ls).length ∧ cur2 ≤ n ∧
    (mem2.take cur2).map mmap_entry_t.region =
      (mem.take cur).map mmap_entry_t.region ++ (retained_lines ls).map maps_line.region := by
  induction ls generalizing mem cur with
  | nil =>
    simp only [procdir_loop, Except.ok.injEq, Prod.mk.injEq] at h
    obtain ⟨rfl, rfl⟩ := h
    simp [retained_lines, hn, hcur]
  | cons l ls ih =>
    by_cases hc : n ≤ cur
    · rw [procdir_loop_cons_stop n l ls mem cur hc] at h
      exact absurd h (by simp)
    · have hc1 : cur < n := by omega
      cases hr : l.retained with
      | false =>
        rw [procdir_loop_cons_skip n l ls mem cur hc1 hr] at h
        rw [retained_lines_cons_of_not l ls hr]
        exact ih mem cur hn hcur h
      | true =>
        rw [procdir_loop_cons_keep n l ls mem cur hc1 hr] at h
        rw [retained_lines_cons_of l ls hr]
        have hlen : (mem.set cur (l.to_entry cur)).length = n := by simpa using hn
        obtain ⟨i1, i2, i3, i4⟩ := ih (mem.set cur (l.to_entry cur)) (cur + 1) hlen (by omega) h
        refine ⟨i1, by rw [i2]; simp; omega, i3, ?_⟩
        rw [i4, take_succ_set_eq mem cur _ (by omega)]
        simp [line_region_to_entry]

/-- The maps loop stops with the line-count error exactly when some line is read while
`cur_entry` has already reached `nb_entries`. -/
theorem procdir_loop_error_iff (n : Nat) (ls : List maps_line) (mem : List mmap_entry_t)
    (cur : Nat) :
    (∃ m, procdir_loop n ls mem cur = .error m) ↔
      ∃ k, k < ls.length ∧ n ≤ cur + (retained_lines (ls.take k)).length := by
  induction ls generalizing mem cur with
  | nil => simp [procdir_loop]
  | cons l ls ih =>
    by_cases hc : n ≤ cur
    · rw [procdir_loop_cons_stop n l ls mem cur hc]
      refine ⟨fun _ => ⟨0, by simp, by simp [retained_lines]; exact hc⟩, fun _ => ⟨mem, rfl⟩⟩
    · have hc1 : cur < n := by omega
      cases hr : l.retained with
      | false =>
        rw [procdir_loop_cons_skip n l ls mem cur hc1 hr, ih mem cur]
        constructor
        · rintro ⟨k, hk, hk2⟩
          refine ⟨k + 1, by simpa using hk, ?_⟩
          rw [List.take_succ_cons, retained_lines_cons_of_not _ _ hr]
          exact hk2
        · rintro ⟨k, hk, hk2⟩
          cases k with
          | zero => simp [retained_lines] at hk2; omega
          | succ k =>
            rw [List.take_succ_cons, retained_lines_cons_of_not _ _ hr] at hk2
            exact ⟨k, by simpa using hk, hk2⟩
      | true =>
        rw [procdir_loop_cons_keep n l ls mem cur hc1 hr, ih _ (cur + 1)]
        constructor
        · rintro ⟨k, hk, hk2⟩
          refine ⟨k + 1, by simpa using hk, ?_⟩
          rw [List.take_succ_cons, retained_lines_cons_of _ _ hr]
          simp only [List.length_cons]
          omega
        · rintro ⟨k, hk, hk2⟩
          cases k with
          | zero => simp [retained_lines] at hk2; omega
          | succ k =>
            rw [List.take_succ_cons, retained_lines_cons_of _ _ hr] at hk2
            simp only [List.length_cons] at hk2
            exact ⟨k, by simpa using hk, by omega⟩

end EhElf

/-! ## Ordering -/

namespace EhElf

theorem compare_mmap_entry_le_zero (a b : mmap_entry_t) :
    compare_mmap_entry a b ≤ 0 ↔ a.beg_ip ≤ b.beg_ip := by
  unfold compare_mmap_entry
  by_cases h1 : a.beg_ip < b.beg_ip
  · simp [h1]; omega
  · by_cases h2 : a.beg_ip > b.beg_ip
    · simp [h1, h2]
    · simp [h1, h2]; omega

instance compare_total : IsTotal mmap_entry_t (fun a b => compare_mmap_entry a b ≤ 0) :=
  ⟨fun a b => by
    simp only [compare_mmap_entry_le_zero]
    exact Nat.le_total _ _⟩

instance compare_trans : IsTrans mmap_entry_t (fun a b => compare_mmap_entry a b ≤ 0) :=
  ⟨fun a b c => by
    simp only [compare_mmap_entry_le_zero]
    exact Nat.le_trans⟩

theorem qsort_perm (xs : List mmap_entry_t) : (qsort compare_mmap_entry xs).Perm xs :=
  List.perm_insertionSort _ xs

theorem qsort_sorted (xs : List mmap_entry_t) :
    (qsort compare_mmap_entry xs).Pairwise (fun a b => a.beg_ip ≤ b.beg_ip) := by
  have h := List.sorted_insertionSort (fun a b => compare_mmap_entry a b ≤ 0) xs
  unfold List.Sorted at h
  exact h.imp (fun {a b} hab => (compare_mmap_entry_le_zero a b).1 hab)

theorem assign_ids_length (xs : List mmap_entry_t) (p : Nat) :
    (assign_ids xs p).length = xs.length := by
  induction xs generalizing p with
  | nil => rfl
  | cons x xs ih => simp [assign_ids, ih]

/-- Renumbering touches the `id` field only. -/
theorem assign_ids_map {β : Type} (f : mmap_entry_t → β)
    (hf : ∀ e k, f { e with id := k } = f e) (xs : List mmap_entry_t) (p : Nat) :
    (assign_ids xs p).map f = xs.map f := by
  induction xs generalizing p with
  | nil => rfl
  | cons x xs ih => simp [assign_ids, ih, hf]

theorem assign_ids_getElem (xs : List mmap_entry_t) (p i : Nat) (e : mmap_entry_t)
    (h : (assign_ids xs p)[i]? = some e) : e.id = p + i := by
  induction xs generalizing p i with
  | nil => simp [assign_ids] at h
  | cons x xs ih =>
    cases i with
    | zero =>
      simp only [assign_ids, List.getElem?_cons_zero, Option.some.injEq] at h
      subst h; rfl
    | succ i =>
      simp only [assign_ids, List.getElem?_cons_succ] at h
      have := ih (p + 1) i h
      omega

/-- A relation on the `beg_ip`/`end_ip` fields that holds pairwise in a list holds
pairwise in any list with the same fields in the same order. -/
theorem pairwise_of_map_eq {α β γ : Type} (f : α → γ) (g : β → γ) (R : γ → γ → Prop)
    (xs : List α) (ys : List β) (h : xs.map f = ys.map g)
    (hp : ys.Pairwise (fun a b => R (g a) (g b))) :
    xs.Pairwise (fun a b => R (f a) (f b)) := by
  have h1 : (ys.map g).Pairwise R := List.pairwise_map.2 hp
  rw [← h] at h1
  exact List.pairwise_map.1 h1

/-! ## Resolving handlers -/

theorem find_dl_obj_name (p : String) (c : List dl_obj_list_t) (e : dl_obj_list_t)
    (h : find_dl_obj p c = some e) : e.object_name = p := by
  induction c with
  | nil => simp [find_dl_obj] at h
  | cons x xs ih =>
    by_cases hx : x.object_name = p
    · simp only [find_dl_obj, hx, if_true, Option.some.injEq] at h
      subst h; exact hx
    · simp only [find_dl_obj, hx, if_false] at h
      exact ih h

theorem find_dl_obj_mem (p : String) (c : List dl_obj_list_t) (e : dl_obj_list_t)
    (h : find_dl_obj p c = some e) : e ∈ c := by
  induction c with
  | nil => simp [find_dl_obj] at h
  | cons x xs ih =>
    by_cases hx : x.object_name = p
    · simp only [find_dl_obj, hx, if_true, Option.some.injEq] at h
      subst h; simp
    · simp only [find_dl_obj, hx, if_false] at h
      exact List.mem_cons_of_mem _ (ih h)

/-- Resolving one handler touches the cache and the loader trace only. -/
theorem mmap_dlopen_eh_elf_frame (L : Loader) (p : String) (s : State) :
    (mmap_dlopen_eh_elf L p s).2._memory_map = s._memory_map ∧
    (mmap_dlopen_eh_elf L p s).2._memory_map_size = s._memory_map_size ∧
    (mmap_dlopen_eh_elf L p s).2._mmap_init_done = s._mmap_init_done := by
  unfold mmap_dlopen_eh_elf
  cases find_dl_obj p s._dl_obj_list with
  | some e => simp
  | none =>
    simp only [State.log]
    split_ifs <;> simp

/-- A cache hit returns the node found and changes nothing at all. -/
theorem mmap_dlopen_eh_elf_hit (L : Loader) (p : String) (s : State) (e : dl_obj_list_t)
    (h : find_dl_obj p s._dl_obj_list = some e) :
    mmap_dlopen_eh_elf L p s = (some e, s) := by
  simp [mmap_dlopen_eh_elf, h]

/-- A cache miss on an object whose handler loads returns a new node, which is then the
head of the cache. -/
theorem mmap_dlopen_eh_elf_load (L : Loader) (p : String) (s : State)
    (h : find_dl_obj p s._dl_obj_list = none) (hl : L.loads p) :
    ∃ e, (mmap_dlopen_eh_elf L p s).1 = some e ∧ e.object_name = p ∧
      (mmap_dlopen_eh_elf L p s).2._dl_obj_list = e :: s._dl_obj_list := by
  obtain ⟨h1, h2⟩ := hl
  simp [mmap_dlopen_eh_elf, h, h1, h2]

/-- A cache miss on an object whose handler does not load fails and leaves the cache as
it was. -/
theorem mmap_dlopen_eh_elf_fail (L : Loader) (p : String) (s : State)
    (h : find_dl_obj p s._dl_obj_list = none) (hl : ¬ L.loads p) :
    (mmap_dlopen_eh_elf L p s).1 = none ∧
      (mmap_dlopen_eh_elf L p s).2._dl_obj_list = s._dl_obj_list := by
  unfold Loader.loads at hl
  unfold mmap_dlopen_eh_elf
  simp only [h, State.log]
  by_cases h1 : L.dlopen (basename p ++ ".eh_elf.so") = 0
  · simp [h1]
  · have h2 : L.dlsym (L.dlopen (basename p ++ ".eh_elf.so")) "_eh_elf" = 0 := by
      by_contra h2
      exact hl ⟨h1, h2⟩
    simp [h1, h2]

/-- Whatever happens, a resolution that succeeds returned a node named `p`, and one that
changes the cache prepends exactly that node, whose handler loads. -/
theorem mmap_dlopen_eh_elf_cases (L : Loader) (p : String) (s : State) :
    (∃ e, find_dl_obj p s._dl_obj_list = some e ∧ mmap_dlopen_eh_elf L p s = (some e, s)) ∨
    (find_dl_obj p s._dl_obj_list = none ∧ L.loads p ∧
      ∃ e, (mmap_dlopen_eh_elf L p s).1 = some e ∧ e.object_name = p ∧
        (mmap_dlopen_eh_elf L p s).2._dl_obj_list = e :: s._dl_obj_list) ∨
    (find_dl_obj p s._dl_obj_list = none ∧ ¬ L.loads p ∧
      (mmap_dlopen_eh_elf L p s).1 = none ∧
        (mmap_dlopen_eh_elf L p s).2._dl_obj_list = s._dl_obj_list) := by
  cases h : find_dl_obj p s._dl_obj_list with
  | some e => exact Or.inl ⟨e, rfl, mmap_dlopen_eh_elf_hit L p s e h⟩
  | none =>
    by_cases hl : L.loads p
    · exact Or.inr (Or.inl ⟨rfl, hl, mmap_dlopen_eh_elf_load L p s h hl⟩)
    · exact Or.inr (Or.inr ⟨rfl, hl, mmap_dlopen_eh_elf_fail L p s h hl⟩)

theorem mmap_dlopen_eh_elfs_code (L : Loader) (es : List mmap_entry_t) (s : State) :
    (mmap_dlopen_eh_elfs L es s).1 = 0 ∨ (mmap_dlopen_eh_elfs L es s).1 = -1 := by
  induction es generalizing s with
  | nil => simp [mmap_dlopen_eh_elfs]
  | cons e es ih =>
    unfold mmap_dlopen_eh_elfs
    rcases hr : mmap_dlopen_eh_elf L e.object_name s with ⟨_ | elt, s1⟩
    · simp
    · simpa using ih s1

/-- Resolving the handlers of a table touches the `eh_elf` and `fde_func` fields only. -/
theorem mmap_dlopen_eh_elfs_map {β : Type} (f : mmap_entry_t → β)
    (hf : ∀ e h g, f { e with eh_elf := h, fde_func := g } = f e) (L : Loader)
    (es : List mmap_entry_t) (s : State) :
    (mmap_dlopen_eh_elfs L es s).2.1.map f = es.map f := by
  induction es generalizing s with
  | nil => simp [mmap_dlopen_eh_elfs]
  | cons e es ih =>
    unfold mmap_dlopen_eh_elfs
    rcases hr : mmap_dlopen_eh_elf L e.object_name s with ⟨_ | elt, s1⟩
    · simp
    · simp [ih s1, hf]

theorem mmap_dlopen_eh_elfs_frame (L : Loader) (es : List mmap_entry_t) (s : State) :
    (mmap_dlopen_eh_elfs L es s).2.2._memory_map = s._memory_map ∧
    (mmap_dlopen_eh_elfs L es s).2.2._memory_map_size = s._memory_map_size ∧
    (mmap_dlopen_eh_elfs L es s).2.2._mmap_init_done = s._mmap_init_done := by
  induction es generalizing s with
  | nil => simp [mmap_dlopen_eh_elfs]
  | cons e es ih =>
    unfold mmap_dlopen_eh_elfs
    have hf := mmap_dlopen_eh_elf_frame L e.object_name s
    rcases hr : mmap_dlopen_eh_elf L e.object_name s with ⟨_ | elt, s1⟩
    · rw [hr] at hf; simpa using hf
    · rw [hr] at hf
      obtain ⟨i1, i2, i3⟩ := ih s1
      simp only [] at hf ⊢
      exact ⟨i1.trans hf.1, i2.trans hf.2.1, i3.trans hf.2.2⟩

/-- When the handler of every entry loads, the whole table resolves. -/
theorem mmap_dlopen_eh_elfs_ok (L : Loader) (es : List mmap_entry_t) (s : State)
    (h : ∀ e ∈ es, L.loads e.object_name) : (mmap_dlopen_eh_elfs L es s).1 = 0 := by
  induction es generalizing s with
  | nil => simp [mmap_dlopen_eh_elfs]
  | cons e es ih =>
    have he : L.loads e.object_name := h e (by simp)
    have hes : ∀ x ∈ es, L.loads x.object_name := fun x hx => h x (List.mem_cons_of_mem _ hx)
    unfold mmap_dlopen_eh_elfs
    rcases mmap_dlopen_eh_elf_cases L e.object_name s with ⟨elt, _, h2⟩ | ⟨_, _, elt, h2, _⟩ |
      ⟨_, h2, _⟩
    · rw [h2]; simpa using ih s hes
    · rcases hr : mmap_dlopen_eh_elf L e.object_name s with ⟨r, s1⟩
      rw [hr] at h2
      simp only [] at h2
      subst h2
      simpa using ih s1 hes
    · exact absurd he h2

/-- When some entry names an object that is neither cached nor loadable, resolving the
table fails. -/
theorem mmap_dlopen_eh_elfs_fail (L : Loader) (es : List mmap_entry_t) (s : State)
    (h : ∃ e ∈ es, find_dl_obj e.object_name s._dl_obj_list = none ∧ ¬ L.loads e.object_name) :
    (mmap_dlopen_eh_elfs L es s).1 = -1 := by
  induction es generalizing s with
  | nil => simp at h
  | cons e es ih =>
    obtain ⟨x, hx, hx1, hx2⟩ := h
    unfold mmap_dlopen_eh_elfs
    rcases mmap_dlopen_eh_elf_cases L e.object_name s with ⟨elt, h1, h2⟩ | ⟨h1, hl, elt, h2, h3, h4⟩ |
      ⟨_, _, h2, _⟩
    · rw [h2]
      have hxe : x ∈ es := by
        rcases List.mem_cons.1 hx with rfl | hx'
        · rw [h1] at hx1; exact absurd hx1 (by simp)
        · exact hx'
      simpa using ih s ⟨x, hxe, hx1, hx2⟩
    · rcases hr : mmap_dlopen_eh_elf L e.object_name s with ⟨r, s1⟩
      rw [hr] at h2 h4
      simp only [] at h2 h4
      subst h2
      have hxe : x ∈ es := by
        rcases List.mem_cons.1 hx with rfl | hx'
        · exact absurd hl hx2
        · exact hx'
      have hne : elt.object_name ≠ x.object_name := by
        intro heq
        rw [h3] at heq
        rw [heq] at hl
        exact hx2 hl
      have hfind : find_dl_obj x.object_name s1._dl_obj_list = none := by
        rw [h4]
        simp [find_dl_obj, hne, hx1]
      simpa using ih s1 ⟨x, hxe, hfind, hx2⟩
    · rcases hr : mmap_dlopen_eh_elf L e.object_name s with ⟨r, s1⟩
      rw [hr] at h2
      simp only [] at h2
      subst h2
      simp

end EhElf

/-! ## Binary search -/

namespace EhElf

theorem bsearch_compar_zero_iff (a : Nat) (e : mmap_entry_t) :
    bsearch_compar_mmap_entry a e = 0 ↔ in_range e.beg_ip e.end_ip a := by
  unfold bsearch_compar_mmap_entry in_range
  by_cases h : e.beg_ip ≤ a ∧ a < e.end_ip
  · simp [h]
  · by_cases h2 : a < e.beg_ip <;> simp [h, h2]

theorem bsearch_compar_neg_iff (a : Nat) (e : mmap_entry_t) :
    bsearch_compar_mmap_entry a e < 0 ↔ ¬ in_range e.beg_ip e.end_ip a ∧ a < e.beg_ip := by
  unfold bsearch_compar_mmap_entry in_range
  by_cases h : e.beg_ip ≤ a ∧ a < e.end_ip
  · simp [h]
  · by_cases h2 : a < e.beg_ip <;> simp [h, h2]

/-- Soundness of the search: a cell it returns is a cell of the array whose range holds
the key. -/
theorem bsearch_loop_sound (a : Nat) (t : List mmap_entry_t) (fuel l u : Nat)
    (p : mmap_entry_t) (h : bsearch_loop bsearch_compar_mmap_entry a t fuel l u = some p) :
    p ∈ t ∧ in_range p.beg_ip p.end_ip a := by
  induction fuel generalizing l u with
  | zero => simp [bsearch_loop] at h
  | succ fuel ih =>
    unfold bsearch_loop at h
    by_cases hlu : l < u
    · simp only [hlu, if_true] at h
      cases hq : t[(l + u) / 2]? with
      | none => simp [hq] at h
      | some q =>
        simp only [hq] at h
        by_cases h1 : bsearch_compar_mmap_entry a q < 0
        · simp only [h1, if_true] at h
          exact ih _ _ h
        · by_cases h2 : bsearch_compar_mmap_entry a q > 0
          · simp only [h1, h2, if_true, if_false] at h
            exact ih _ _ h
          · simp only [h1, h2, if_false, Option.some.injEq] at h
            subst h
            have hz : bsearch_compar_mmap_entry a q = 0 := by omega
            exact ⟨List.getElem?_mem hq, (bsearch_compar_zero_iff a q).1 hz⟩
    · simp [hlu] at h

/-- Completeness of the search on an ordered table of non-empty, non-overlapping ranges:
if the cell at an index of the window holds the key, the search returns that cell, and
the fuel given to the loop is never what ends it. -/
theorem bsearch_loop_complete (a : Nat) (t : List mmap_entry_t)
    (hne : ∀ e ∈ t, e.beg_ip < e.end_ip)
    (hord : t.Pairwise (fun x y => x.end_ip ≤ y.beg_ip))
    (fuel l u : Nat) (hu : u ≤ t.length) (hfuel : u - l ≤ fuel)
    (i : Nat) (e : mmap_entry_t) (hli : l ≤ i) (hiu : i < u) (hi : t[i]? = some e)
    (ha : in_range e.beg_ip e.end_ip a) :
    bsearch_loop bsearch_compar_mmap_entry a t fuel l u = some e := by
  induction fuel generalizing l u with
  | zero => omega
  | succ fuel ih =>
    unfold bsearch_loop
    have hlu : l < u := by omega
    simp only [hlu, if_true]
    have hmid : (l + u) / 2 < t.length := by omega
    have hq : t[(l + u) / 2]? = some (t[(l + u) / 2]) := List.getElem?_eq_getElem hmid
    rw [hq]
    simp only []
    have hilt : i < t.length := by omega
    have hie : t[i] = e := by
      have := List.getElem?_eq_getElem hilt
      rw [hi] at this
      exact (Option.some.inj this).symm
    have hpw := List.pairwise_iff_getElem.1 hord
    have hqne := hne _ (List.getElem_mem hmid)
    unfold in_range at ha
    by_cases h1 : bsearch_compar_mmap_entry a (t[(l + u) / 2]) < 0
    · simp only [h1, if_true]
      have h1b := ((bsearch_compar_neg_iff a _).1 h1).2
      have hlt : i < (l + u) / 2 := by
        by_contra hcon
        rcases Nat.lt_or_ge ((l + u) / 2) i with hgt | hle
        · have := hpw _ _ hmid hilt hgt
          rw [hie] at this
          omega
        · have heq : i = (l + u) / 2 := by omega
          subst heq
          rw [hie] at h1b
          omega
      exact ih l ((l + u) / 2) (by omega) (by omega) hli hlt
    · by_cases h2 : bsearch_compar_mmap_entry a (t[(l + u) / 2]) > 0
      · simp only [h1, h2, if_true, if_false]
        have hnz : ¬ in_range (t[(l + u) / 2]).beg_ip (t[(l + u) / 2]).end_ip a := by
          intro hin
          have := (bsearch_compar_zero_iff a _).2 hin
          omega
        have hnn : ¬ a < (t[(l + u) / 2]).beg_ip := by
          intro hlt
          have := (bsearch_compar_neg_iff a _).2 ⟨hnz, hlt⟩
          omega
        unfold in_range at hnz
        have hgt : (l + u) / 2 < i := by
          by_contra hcon
          rcases Nat.lt_or_ge i ((l + u) / 2) with hlt | hle
          · have := hpw _ _ hilt hmid hlt
            rw [hie] at this
            omega
          · have heq : i = (l + u) / 2 := by omega
            subst heq
            rw [hie] at hnz
            omega
        exact ih ((l + u) / 2 + 1) u hu (by omega) (by omega) hiu
      · simp only [h1, h2, if_false]
        have hz : bsearch_compar_mmap_entry a (t[(l + u) / 2]) = 0 := by omega
        have hin := (bsearch_compar_zero_iff a _).1 hz
        unfold in_range at hin
        congr 1
        rcases Nat.lt_trichotomy i ((l + u) / 2) with hlt | heq | hgt
        · have := hpw _ _ hilt hmid hlt
          rw [hie] at this
          omega
        · subst heq; exact hie
        · have := hpw _ _ hmid hilt hgt
          rw [hie] at this
          omega

/-- In a list ordered by `beg_ip` whose ranges are non-empty and pairwise disjoint, every
range ends before the next begins. -/
theorem ordered_disjoint_chain (t : List mmap_entry_t)
    (hne : ∀ e ∈ t, e.beg_ip < e.end_ip)
    (hsorted : t.Pairwise (fun x y => x.beg_ip ≤ y.beg_ip))
    (hdis : t.Pairwise (fun x y => ranges_disjoint x.beg_ip x.end_ip y.beg_ip y.end_ip)) :
    t.Pairwise (fun x y => x.end_ip ≤ y.beg_ip) := by
  induction t with
  | nil => exact List.Pairwise.nil
  | cons x xs ih =>
    rw [List.pairwise_cons] at hsorted hdis ⊢
    refine ⟨fun y hy => ?_, ih (fun e he => hne e (List.mem_cons_of_mem _ he)) hsorted.2 hdis.2⟩
    have h1 := hsorted.1 y hy
    have h2 := hdis.1 y hy
    have h3 := hne y (List.mem_cons_of_mem _ hy)
    by_contra hcon
    exact h2 y.beg_ip ⟨⟨h1, by omega⟩, ⟨le_refl _, h3⟩⟩

end EhElf

/-! ## The common tail of the two builds -/

namespace EhElf

/-- The regions of the ordered table are those of the array it was built from. -/
theorem order_entries_region_perm (xs : List mmap_entry_t) :
    ((mmap_order_entries xs).2.map mmap_entry_t.region).Perm (xs.map mmap_entry_t.region) := by
  unfold mmap_order_entries
  rw [assign_ids_map mmap_entry_t.region (fun _ _ => rfl)]
  exact (qsort_perm xs).map _

theorem order_entries_sorted (xs : List mmap_entry_t) :
    (mmap_order_entries xs).2.Pairwise (fun a b => a.beg_ip ≤ b.beg_ip) := by
  unfold mmap_order_entries
  have h := qsort_sorted xs
  have hm : (assign_ids (qsort compare_mmap_entry xs) 0).map (fun e => e.beg_ip) =
      (qsort compare_mmap_entry xs).map (fun e => e.beg_ip) :=
    assign_ids_map (fun e : mmap_entry_t => e.beg_ip) (fun _ _ => rfl) _ _
  exact pairwise_of_map_eq (fun e : mmap_entry_t => e.beg_ip) (fun e : mmap_entry_t => e.beg_ip)
    (fun a b => a ≤ b) _ _ hm h

theorem order_entries_ids (xs : List mmap_entry_t) (i : Nat) (e : mmap_entry_t)
    (h : (mmap_order_entries xs).2[i]? = some e) : e.id = i := by
  unfold mmap_order_entries at h
  have := assign_ids_getElem _ 0 i e h
  omega

/-- What `finish_init` returns and leaves in the state, in terms of the handler
resolution over the ordered table. -/
theorem finish_init_eq (L : Loader) (mem : List mmap_entry_t) (size : Nat) (s : State) :
    ∃ s2 : State, s2._dl_obj_list = s._dl_obj_list ∧ s2._mmap_init_done = s._mmap_init_done ∧
      s2.dl_trace = s.dl_trace ∧
      (finish_init L mem size s).2._memory_map =
        (mmap_dlopen_eh_elfs L (mmap_order_entries (mem.take size)).2 s2).2.1 ∧
      (finish_init L mem size s).2._memory_map_size = size ∧
      (finish_init L mem size s).2._dl_obj_list =
        (mmap_dlopen_eh_elfs L (mmap_order_entries (mem.take size)).2 s2).2.2._dl_obj_list ∧
      (finish_init L mem size s).2.dl_trace =
        (mmap_dlopen_eh_elfs L (mmap_order_entries (mem.take size)).2 s2).2.2.dl_trace ∧
      ((mmap_dlopen_eh_elfs L (mmap_order_entries (mem.take size)).2 s2).1 = 0 →
        (finish_init L mem size s).1 = 0 ∧ (finish_init L mem size s).2._mmap_init_done = true) ∧
      ((mmap_dlopen_eh_elfs L (mmap_order_entries (mem.take size)).2 s2).1 = -1 →
        (finish_init L mem size s).1 = -4 ∧
          (finish_init L mem size s).2._mmap_init_done = s._mmap_init_done) := by
  refine ⟨{ s with _memory_map := (mmap_order_entries (mem.take size)).2,
                   _memory_map_size := size }, rfl, rfl, rfl, ?_⟩
  have ho : ¬ (mmap_order_entries (List.take size mem)).1 < 0 := by
    simp [mmap_order_entries]
  have hf := mmap_dlopen_eh_elfs_frame L (mmap_order_entries (mem.take size)).2
    { s with _memory_map := (mmap_order_entries (mem.take size)).2, _memory_map_size := size }
  simp only [finish_init, ho, if_false]
  refine ⟨?_, ?_, ?_, ?_, ?_, ?_⟩
  · split_ifs <;> rfl
  · split_ifs <;> simp [hf.2.1]
  · split_ifs <;> rfl
  · split_ifs <;> rfl
  · intro h0
    simp [h0]
  · intro h1
    simp [h1, hf.2.2]

/-- The outcome of `finish_init`: code 0 or -4, and a table that holds exactly the regions
of the array, ordered by `beg_ip` and numbered by position. -/
theorem finish_init_spec (L : Loader) (mem : List mmap_entry_t) (size : Nat) (s : State) :
    ((finish_init L mem size s).1 = 0 ∨ (finish_init L mem size s).1 = -4) ∧
    (finish_init L mem size s).2._memory_map_size = size ∧
    ((finish_init L mem size s).2._memory_map.map mmap_entry_t.region).Perm
      ((mem.take size).map mmap_entry_t.region) ∧
    (finish_init L mem size s).2._memory_map.Pairwise (fun a b => a.beg_ip ≤ b.beg_ip) ∧
    (∀ (i : Nat) (e : mmap_entry_t),
      (finish_init L mem size s).2._memory_map[i]? = some e → e.id = i) ∧
    ((finish_init L mem size s).1 = 0 → (finish_init L mem size s).2._mmap_init_done = true) ∧
    ((finish_init L mem size s).1 ≠ 0 →
      (finish_init L mem size s).2._mmap_init_done = s._mmap_init_done) := by
  obtain ⟨s2, -, -, -, ht, hs, -, -, h0, h1⟩ := finish_init_eq L mem size s
  have hcode := mmap_dlopen_eh_elfs_code L (mmap_order_entries (mem.take size)).2 s2
  have hreg := mmap_dlopen_eh_elfs_map mmap_entry_t.region (fun _ _ _ => rfl) L
    (mmap_order_entries (mem.take size)).2 s2
  have hbeg := mmap_dlopen_eh_elfs_map (fun e : mmap_entry_t => e.beg_ip) (fun _ _ _ => rfl) L
    (mmap_order_entries (mem.take size)).2 s2
  have hid := mmap_dlopen_eh_elfs_map (fun e : mmap_entry_t => e.id) (fun _ _ _ => rfl) L
    (mmap_order_entries (mem.take size)).2 s2
  refine ⟨?_, hs, ?_, ?_, ?_, ?_, ?_⟩
  · rcases hcode with h | h
    · exact Or.inl (h0 h).1
    · exact Or.inr (h1 h).1
  · rw [ht, hreg]
    exact order_entries_region_perm _
  · rw [ht]
    exact pairwise_of_map_eq (fun e : mmap_entry_t => e.beg_ip)
      (fun e : mmap_entry_t => e.beg_ip) (fun a b => a ≤ b) _ _ hbeg (order_entries_sorted _)
  · intro i e hie
    rw [ht] at hie
    have hm : ((mmap_dlopen_eh_elfs L (mmap_order_entries (mem.take size)).2 s2).2.1.map
        (fun e : mmap_entry_t => e.id))[i]? = some e.id := by
      rw [List.getElem?_map, hie]; rfl
    rw [hid, List.getElem?_map] at hm
    cases hx : (mmap_order_entries (List.take size mem)).2[i]? with
    | none => rw [hx] at hm; simp at hm
    | some x =>
      rw [hx] at hm
      simp only [Option.map_some', Option.some.injEq] at hm
      rw [← hm]
      exact order_entries_ids _ i x hx
  · intro hz
    rcases hcode with h | h
    · exact (h0 h).2
    · rw [(h1 h).1] at hz; exact absurd hz (by decide)
  · intro hz
    rcases hcode with h | h
    · exact absurd (h0 h).1 hz
    · exact (h1 h).2

theorem mem_order_entries_region (xs : List mmap_entry_t) (e : mmap_entry_t)
    (he : e ∈ (mmap_order_entries xs).2) : e.region ∈ xs.map mmap_entry_t.region :=
  (order_entries_region_perm xs).mem_iff.1 (List.mem_map_of_mem _ he)

/-- When the object of every region of the array loads, `finish_init` succeeds. -/
theorem finish_init_ok (L : Loader) (mem : List mmap_entry_t) (size : Nat) (s : State)
    (h : ∀ r ∈ (mem.take size).map mmap_entry_t.region, L.loads r.2.2.2) :
    (finish_init L mem size s).1 = 0 := by
  obtain ⟨s2, -, -, -, -, -, -, -, h0, -⟩ := finish_init_eq L mem size s
  refine (h0 (mmap_dlopen_eh_elfs_ok L _ s2 (fun e he => ?_))).1
  exact h e.region (mem_order_entries_region _ e he)

/-- When the object of some region of the array is neither cached nor loadable,
`finish_init` fails with -4. -/
theorem finish_init_fail (L : Loader) (mem : List mmap_entry_t) (size : Nat) (s : State)
    (h : ∃ r ∈ (mem.take size).map mmap_entry_t.region,
      find_dl_obj r.2.2.2 s._dl_obj_list = none ∧ ¬ L.loads r.2.2.2) :
    (finish_init L mem size s).1 = -4 := by
  obtain ⟨s2, hc, -, -, -, -, -, -, -, h1⟩ := finish_init_eq L mem size s
  obtain ⟨r, hr, hr1, hr2⟩ := h
  have hr' : r ∈ (mmap_order_entries (mem.take size)).2.map mmap_entry_t.region :=
    (order_entries_region_perm _).mem_iff.2 hr
  obtain ⟨e, he, rfl⟩ := List.mem_map.1 hr'
  refine (h1 (mmap_dlopen_eh_elfs_fail L _ s2 ⟨e, he, ?_, hr2⟩)).1
  rw [hc]
  exact hr1

end EhElf

/-! ## The two builds -/

namespace EhElf

theorem int_of_size_t_small (n : Nat) (h : n ≤ INT_MAX) : (int_of_size_t n).toNat = n := by
  unfold INT_MAX at h
  unfold int_of_size_t
  have h1 : n % 2 ^ 32 = n := Nat.mod_eq_of_lt (by omega)
  rw [h1]
  have h2 : n < 2 ^ 31 := by omega
  rw [if_pos h2]
  exact Int.toNat_natCast n

theorem retained_entries_length_le (entries : List unw_mmap_entry_t) :
    (retained_entries entries).length ≤ entries.length :=
  List.length_filter_le _ _

theorem visited_entries_eq (entries : List unw_mmap_entry_t)
    (hlen : entries.length ≤ INT_MAX) : visited_entries entries = entries := by
  unfold visited_entries
  rw [int_of_size_t_small _ hlen, List.take_length]

theorem retained_visited_sublist (entries : List unw_mmap_entry_t) :
    (retained_entries (visited_entries entries)).Sublist (retained_entries entries) :=
  (List.take_sublist _ _).filter _

/-- The array `mmap_init_mmap` hands to `finish_init` holds, in its first `mmap_pos`
cells, the regions of the retained entries among those visited, in input order. -/
theorem mmap_init_mmap_array (entries : List unw_mmap_entry_t) :
    (init_mmap_loop (visited_entries entries) 0 (calloc entries.length) 0).2 =
      (retained_entries (visited_entries entries)).length ∧
    ((init_mmap_loop (visited_entries entries) 0 (calloc entries.length) 0).1.take
      (init_mmap_loop (visited_entries entries) 0 (calloc entries.length) 0).2).map
        mmap_entry_t.region =
      (retained_entries (visited_entries entries)).map unw_mmap_entry_t.region := by
  have hle : (retained_entries (visited_entries entries)).length ≤ entries.length :=
    le_trans (retained_entries_length_le _) (List.take_sublist _ _).length_le
  have h := init_mmap_loop_spec (visited_entries entries) 0 (calloc entries.length) 0
    (by simp [calloc]; exact hle)
  refine ⟨by simpa using h.2.1, ?_⟩
  rw [h.2.2]
  simp

theorem mmap_init_mmap_eq (L : Loader) (entries : List unw_mmap_entry_t) (s : State) :
    mmap_init_mmap L entries s =
      finish_init L
        (init_mmap_loop (visited_entries entries) 0 (calloc entries.length) 0).1
        (init_mmap_loop (visited_entries entries) 0 (calloc entries.length) 0).2
        { mmap_clear s with _memory_map := calloc entries.length,
                            _memory_map_size := entries.length } := rfl

/-- The outcome of `mmap_init_mmap`: code 0 or -4, a table holding exactly the regions of
the retained entries among those visited, ordered by `beg_ip` and numbered by position,
and `_mmap_init_done` set exactly on code 0. -/
theorem mmap_init_mmap_spec (L : Loader) (entries : List unw_mmap_entry_t) (s : State) :
    ((mmap_init_mmap L entries s).1 = 0 ∨ (mmap_init_mmap L entries s).1 = -4) ∧
    (mmap_init_mmap L entries s).2._memory_map_size =
      (retained_entries (visited_entries entries)).length ∧
    ((mmap_init_mmap L entries s).2._memory_map.map mmap_entry_t.region).Perm
      ((retained_entries (visited_entries entries)).map unw_mmap_entry_t.region) ∧
    (mmap_init_mmap L entries s).2._memory_map.Pairwise (fun a b => a.beg_ip ≤ b.beg_ip) ∧
    (∀ (i : Nat) (e : mmap_entry_t),
      (mmap_init_mmap L entries s).2._memory_map[i]? = some e → e.id = i) ∧
    ((mmap_init_mmap L entries s).1 = 0 →
      (mmap_init_mmap L entries s).2._mmap_init_done = true) ∧
    ((mmap_init_mmap L entries s).1 ≠ 0 →
      (mmap_init_mmap L entries s).2._mmap_init_done = false) := by
  obtain ⟨a1, a2⟩ := mmap_init_mmap_array entries
  rw [mmap_init_mmap_eq]
  obtain ⟨f1, f2, f3, f4, f5, f6, f7⟩ := finish_init_spec L
    (init_mmap_loop (visited_entries entries) 0 (calloc entries.length) 0).1
    (init_mmap_loop (visited_entries entries) 0 (calloc entries.length) 0).2
    { mmap_clear s with _memory_map := calloc entries.length,
                        _memory_map_size := entries.length }
  rw [a2] at f3
  exact ⟨f1, f2.trans a1, f3, f4, f5, f6, f7⟩

/-- When the object of every retained entry loads, `mmap_init_mmap` returns 0. -/
theorem mmap_init_mmap_ok (L : Loader) (entries : List unw_mmap_entry_t) (s : State)
    (h : ∀ e ∈ retained_entries entries, L.loads e.object_name) :
    (mmap_init_mmap L entries s).1 = 0 := by
  obtain ⟨-, a2⟩ := mmap_init_mmap_array entries
  rw [mmap_init_mmap_eq]
  apply finish_init_ok
  rw [a2]
  intro r hr
  obtain ⟨e, he, rfl⟩ := List.mem_map.1 hr
  exact h e ((retained_visited_sublist entries).subset he)

/-- When the object of some retained entry the loop visits is neither cached nor
loadable, `mmap_init_mmap` returns -4. -/
theorem mmap_init_mmap_fail (L : Loader) (entries : List unw_mmap_entry_t) (s : State)
    (h : ∃ e ∈ retained_entries (visited_entries entries),
      find_dl_obj e.object_name s._dl_obj_list = none ∧ ¬ L.loads e.object_name) :
    (mmap_init_mmap L entries s).1 = -4 := by
  obtain ⟨-, a2⟩ := mmap_init_mmap_array entries
  obtain ⟨e, he, h1, h2⟩ := h
  rw [mmap_init_mmap_eq]
  apply finish_init_fail
  rw [a2]
  exact ⟨e.region, List.mem_map_of_mem _ he, h1, h2⟩

/-- The three ways through `mmap_init_procdir`: the maps file does not open; the loop
stops on the line count; or the loop reaches end of file and `finish_init` runs on an
array whose first `cur_entry` cells hold the regions of the retained lines. -/
theorem mmap_init_procdir_cases (fopen : String → Option maps_file) (L : Loader)
    (procdir : String) (s : State) :
    (fopen (procdir ++ "/maps") = none ∧
      mmap_init_procdir fopen L procdir s = (-1, mmap_clear s)) ∨
    (∃ f, fopen (procdir ++ "/maps") = some f ∧
      (∃ m, procdir_loop f.nb_entries f.lines (calloc f.nb_entries) 0 = .error m) ∧
      (mmap_init_procdir fopen L procdir s).1 = -2 ∧
      (mmap_init_procdir fopen L procdir s).2._mmap_init_done = false ∧
      (mmap_init_procdir fopen L procdir s).2._dl_obj_list = s._dl_obj_list ∧
      (mmap_init_procdir fopen L procdir s).2.dl_trace = s.dl_trace) ∨
    (∃ f mem cur, fopen (procdir ++ "/maps") = some f ∧
      procdir_loop f.nb_entries f.lines (calloc f.nb_entries) 0 = .ok (mem, cur) ∧
      mmap_init_procdir fopen L procdir s =
        finish_init L mem cur { mmap_clear s with _memory_map := calloc f.nb_entries,
                                                  _memory_map_size := f.nb_entries } ∧
      cur = (retained_lines f.lines).length ∧
      (mem.take cur).map mmap_entry_t.region =
        (retained_lines f.lines).map maps_line.region) := by
  cases hf : fopen (procdir ++ "/maps") with
  | none =>
    left
    simp [mmap_init_procdir, hf]
  | some f =>
    right
    cases hl : procdir_loop f.nb_entries f.lines (calloc f.nb_entries) 0 with
    | error m =>
      left
      refine ⟨f, rfl, ⟨m, hl⟩, ?_⟩
      simp [mmap_init_procdir, hf, hl, mmap_clear]
    | ok r =>
      right
      obtain ⟨mem, cur⟩ := r
      have hs := procdir_loop_spec f.nb_entries f.lines (calloc f.nb_entries) 0 mem cur
        (by simp [calloc]) (Nat.zero_le _) hl
      refine ⟨f, mem, cur, rfl, hl, ?_, by simpa using hs.2.1, by simpa using hs.2.2.2⟩
      simp [mmap_init_procdir, hf, hl]

/-- For both builds `_mmap_init_done` is set after the call exactly when the call
returned 0. -/
theorem mmap_init_procdir_done_iff (fopen : String → Option maps_file) (L : Loader)
    (procdir : String) (s : State) :
    (mmap_init_procdir fopen L procdir s).2._mmap_init_done = true ↔
      (mmap_init_procdir fopen L procdir s).1 = 0 := by
  rcases mmap_init_procdir_cases fopen L procdir s with ⟨-, h⟩ | ⟨f, -, -, h1, h2, -⟩ |
    ⟨f, mem, cur, -, -, h, -, -⟩
  · rw [h]; simp [mmap_clear]
  · rw [h1, h2]; simp
  · rw [h]
    obtain ⟨f1, -, -, -, -, f6, f7⟩ := finish_init_spec L mem cur
      { mmap_clear s with _memory_map := calloc f.nb_entries,
                          _memory_map_size := f.nb_entries }
    constructor
    · intro hd
      by_contra hne
      have := f7 hne
      rw [hd] at this
      simp [mmap_clear] at this
    · exact f6

theorem mmap_init_mmap_done_iff (L : Loader) (entries : List unw_mmap_entry_t) (s : State) :
    (mmap_init_mmap L entries s).2._mmap_init_done = true ↔
      (mmap_init_mmap L entries s).1 = 0 := by
  rw [mmap_init_mmap_eq]
  obtain ⟨f1, -, -, -, -, f6, f7⟩ := finish_init_spec L
    (init_mmap_loop (visited_entries entries) 0 (calloc entries.length) 0).1
    (init_mmap_loop (visited_entries entries) 0 (calloc entries.length) 0).2
    { mmap_clear s with _memory_map := calloc entries.length,
                        _memory_map_size := entries.length }
  constructor
  · intro hd
    by_contra hne
    have := f7 hne
    rw [hd] at this
    simp [mmap_clear] at this
  · exact f6

/-- Before `_mmap_init_done` is set every lookup returns `NULL`. -/
theorem mmap_get_entry_not_done (s : State) (h : s._mmap_init_done = false) (a : Nat) :
    mmap_get_entry s a = none := by
  simp [mmap_get_entry, h]

end EhElf

/-! ## Lookup on a built table -/

namespace EhElf

theorem ranges_disjoint_symm {b1 e1 b2 e2 : Nat} (h : ranges_disjoint b1 e1 b2 e2) :
    ranges_disjoint b2 e2 b1 e1 :=
  fun a ha => h a ⟨ha.2, ha.1⟩

/-- Two ranges of which one ends where or before the other begins are disjoint. -/
theorem ranges_disjoint_of_le {b1 e1 b2 e2 : Nat} (h : e1 ≤ b2 ∨ e2 ≤ b1) :
    ranges_disjoint b1 e1 b2 e2 := by
  intro a ha
  unfold in_range at ha
  omega

/-- Non-emptiness of the ranges carries over from a list of regions to a table holding
the same regions. -/
theorem table_nonempty_of_regions (t : List mmap_entry_t) (rs : List (Nat × Nat × Nat × String))
    (hreg : (t.map mmap_entry_t.region).Perm rs) (h : ∀ r ∈ rs, r.1 < r.2.1) :
    ∀ e ∈ t, e.beg_ip < e.end_ip := by
  intro e he
  exact h e.region (hreg.mem_iff.1 (List.mem_map_of_mem _ he))

/-- Pairwise disjointness of the ranges carries over from a list of regions to a table
holding the same regions, in whatever order. -/
theorem table_disjoint_of_regions (t : List mmap_entry_t) (rs : List (Nat × Nat × Nat × String))
    (hreg : (t.map mmap_entry_t.region).Perm rs)
    (h : rs.Pairwise (fun p q => ranges_disjoint p.1 p.2.1 q.1 q.2.1)) :
    t.Pairwise (fun x y => ranges_disjoint x.beg_ip x.end_ip y.beg_ip y.end_ip) := by
  have h1 : (t.map mmap_entry_t.region).Pairwise
      (fun p q => ranges_disjoint p.1 p.2.1 q.1 q.2.1) :=
    (hreg.pairwise_iff (fun hxy => ranges_disjoint_symm hxy)).2 h
  exact List.pairwise_map.1 h1

theorem mmap_get_entry_sound (s : State) (a : Nat) (p : mmap_entry_t)
    (h : mmap_get_entry s a = some p) :
    s._mmap_init_done = true ∧ p ∈ s._memory_map ∧ in_range p.beg_ip p.end_ip a := by
  unfold mmap_get_entry at h
  cases hd : s._mmap_init_done with
  | false => simp [hd] at h
  | true =>
    simp only [hd, Bool.not_true, Bool.false_eq_true, if_false] at h
    exact ⟨rfl, bsearch_loop_sound a _ _ _ _ p h⟩

/-- On an initialized registry whose table is ordered by `beg_ip` and made of non-empty,
pairwise disjoint ranges, the lookup of an address returns the region holding it. -/
theorem mmap_get_entry_complete (s : State) (a : Nat) (r : mmap_entry_t)
    (hdone : s._mmap_init_done = true) (hsize : s._memory_map_size = s._memory_map.length)
    (hne : ∀ e ∈ s._memory_map, e.beg_ip < e.end_ip)
    (hsorted : s._memory_map.Pairwise (fun x y => x.beg_ip ≤ y.beg_ip))
    (hdis : s._memory_map.Pairwise
      (fun x y => ranges_disjoint x.beg_ip x.end_ip y.beg_ip y.end_ip))
    (hr : r ∈ s._memory_map) (ha : in_range r.beg_ip r.end_ip a) :
    mmap_get_entry s a = some r := by
  obtain ⟨i, hi⟩ := List.mem_iff_getElem?.1 hr
  have hil : i < s._memory_map.length := by
    by_contra hcon
    rw [List.getElem?_eq_none (by omega)] at hi
    exact absurd hi (by simp)
  unfold mmap_get_entry bsearch
  simp only [hdone, Bool.not_true, Bool.false_eq_true, if_false]
  rw [hsize]
  exact bsearch_loop_complete a s._memory_map hne (ordered_disjoint_chain _ hne hsorted hdis)
    _ 0 _ (le_refl _) (by omega) i r (Nat.zero_le _) hil hi ha

end EhElf

/-! ## Lookup is correct on a well-formed table -/

namespace EhElf

/-- C1: for a supplied list (fitting an `int` counter) whose retained entries have
`begin < end` and pairwise disjoint ranges, after `mmap_init_mmap` has returned 0 and for
every address `a`: a region of the table whose range holds `a` is what
`mmap_get_entry a` returns, so it is the only such region; a retained entry whose range
holds `a` is found as a region with the same begin, end, offset and name; and when no
retained entry holds `a` the lookup returns `NULL`. -/
theorem lookup_correct_on_well_formed_table (L : Loader) (entries : List unw_mmap_entry_t)
    (s : State) (a : Nat) (hlen : entries.length ≤ INT_MAX)
    (hne : ∀ e ∈ retained_entries entries, e.beg_ip < e.end_ip)
    (hdis : (retained_entries entries).Pairwise
      (fun x y => ranges_disjoint x.beg_ip x.end_ip y.beg_ip y.end_ip))
    (hok : (mmap_init_mmap L entries s).1 = 0) :
    (∀ r ∈ (mmap_init_mmap L entries s).2._memory_map, in_range r.beg_ip r.end_ip a →
      mmap_get_entry (mmap_init_mmap L entries s).2 a = some r ∧
      ∀ r2 ∈ (mmap_init_mmap L entries s).2._memory_map,
        in_range r2.beg_ip r2.end_ip a → r2 = r) ∧
    (∀ e ∈ retained_entries entries, in_range e.beg_ip e.end_ip a →
      ∃ r, mmap_get_entry (mmap_init_mmap L entries s).2 a = some r ∧ r.region = e.region) ∧
    ((∀ e ∈ retained_entries entries, ¬ in_range e.beg_ip e.end_ip a) →
      mmap_get_entry (mmap_init_mmap L entries s).2 a = none) := by
  obtain ⟨-, hsize, hreg, hsorted, -, hdone, -⟩ := mmap_init_mmap_spec L entries s
  rw [visited_entries_eq entries hlen] at hsize hreg
  have hdone := hdone hok
  have hlength : (mmap_init_mmap L entries s).2._memory_map_size =
      (mmap_init_mmap L entries s).2._memory_map.length := by
    rw [hsize]
    simpa using hreg.length_eq.symm
  have hne2 := table_nonempty_of_regions _ _ hreg (fun r hr => by
    obtain ⟨e, he, rfl⟩ := List.mem_map.1 hr
    exact hne e he)
  have hdis2 := table_disjoint_of_regions _ _ hreg (List.pairwise_map.2 hdis)
  have hfind : ∀ r ∈ (mmap_init_mmap L entries s).2._memory_map,
      in_range r.beg_ip r.end_ip a →
      mmap_get_entry (mmap_init_mmap L entries s).2 a = some r :=
    fun r hr ha => mmap_get_entry_complete _ a r hdone hlength hne2 hsorted hdis2 hr ha
  refine ⟨fun r hr ha => ⟨hfind r hr ha, fun r2 hr2 ha2 => ?_⟩, fun e he ha => ?_, fun hnone => ?_⟩
  · have h1 := hfind r hr ha
    rw [hfind r2 hr2 ha2] at h1
    exact Option.some.inj h1
  · have hmem : e.region ∈ (mmap_init_mmap L entries s).2._memory_map.map mmap_entry_t.region :=
      hreg.mem_iff.2 (List.mem_map_of_mem _ he)
    obtain ⟨r, hr, hre⟩ := List.mem_map.1 hmem
    have hb : r.beg_ip = e.beg_ip := congrArg (fun p => p.1) hre
    have hend : r.end_ip = e.end_ip := congrArg (fun p => p.2.1) hre
    exact ⟨r, hfind r hr (by rw [hb, hend]; exact ha), hre⟩
  · cases hg : mmap_get_entry (mmap_init_mmap L entries s).2 a with
    | none => rfl
    | some p =>
      obtain ⟨-, hp, hpa⟩ := mmap_get_entry_sound _ a p hg
      have hmem : p.region ∈ (retained_entries entries).map unw_mmap_entry_t.region :=
        hreg.mem_iff.1 (List.mem_map_of_mem _ hp)
      obtain ⟨e, he, hre⟩ := List.mem_map.1 hmem
      have hb : e.beg_ip = p.beg_ip := congrArg (fun p => p.1) hre
      have hend : e.end_ip = p.end_ip := congrArg (fun p => p.2.1) hre
      exact absurd (by rw [hb, hend]; exact hpa) (hnone e he)

/-- C1 at the sample list: address `0x1800` lies in the mapping of `/bin/a`, address
`0x2800` in the gap between the two mappings. -/
theorem lookup_correct_on_well_formed_table_witness :
    sample_entries.length ≤ INT_MAX ∧
    (∀ e ∈ retained_entries sample_entries, e.beg_ip < e.end_ip) ∧
    (mmap_init_mmap sample_loader sample_entries State.initial).1 = 0 ∧
    (∃ r, mmap_get_entry (mmap_init_mmap sample_loader sample_entries State.initial).2 0x1800
        = some r ∧ r.region = (0x1000, 0x2000, 0, "/bin/a")) ∧
    mmap_get_entry (mmap_init_mmap sample_loader sample_entries State.initial).2 0x2800 = none :=
  have hdis : (retained_entries sample_entries).Pairwise
      (fun x y => ranges_disjoint x.beg_ip x.end_ip y.beg_ip y.end_ip) :=
    (by decide : (retained_entries sample_entries).Pairwise
      (fun x y => x.end_ip ≤ y.beg_ip ∨ y.end_ip ≤ x.beg_ip)).imp ranges_disjoint_of_le
  ⟨by decide, by decide, by decide,
    (lookup_correct_on_well_formed_table sample_loader sample_entries State.initial 0x1800
      (by decide) (by decide) hdis (by decide)).2.1 ⟨0x1000, 0x2000, 0, "/bin/a"⟩
      (by decide) (by decide),
    (lookup_correct_on_well_formed_table sample_loader sample_entries State.initial 0x2800
      (by decide) (by decide) hdis (by decide)).2.2 (by decide)⟩

end EhElf

/-! ## Order, numbering and overlap of a built table -/

namespace EhElf

theorem table_beg_perm (t : List mmap_entry_t) (rs : List (Nat × Nat × Nat × String))
    (hreg : (t.map mmap_entry_t.region).Perm rs) :
    (t.map (fun e => e.beg_ip)).Perm (rs.map (fun r => r.1)) := by
  have h := hreg.map (fun r : Nat × Nat × Nat × String => r.1)
  simpa [List.map_map, Function.comp_def, mmap_entry_t.region] using h

/-- A table ordered by `beg_ip` that holds the regions of a list with pairwise distinct
begin addresses is strictly ordered. -/
theorem table_strict_of_regions (t : List mmap_entry_t) (rs : List (Nat × Nat × Nat × String))
    (hreg : (t.map mmap_entry_t.region).Perm rs)
    (hsorted : t.Pairwise (fun a b => a.beg_ip ≤ b.beg_ip))
    (hnd : (rs.map (fun r => r.1)).Nodup) :
    t.Pairwise (fun a b => a.beg_ip < b.beg_ip) := by
  have h1 : (t.map (fun e => e.beg_ip)).Nodup := (table_beg_perm t rs hreg).nodup_iff.2 hnd
  have h2 : t.Pairwise (fun a b => a.beg_ip ≠ b.beg_ip) := List.pairwise_map.1 h1
  exact (hsorted.and h2).imp (fun h => lt_of_le_of_ne h.1 h.2)

/-- C2, as the code has it: after a build that returned 0, from either source and for any
input, the table is ascending by `beg_ip` (each region begins at or after every region
before it) and every region's `id` is its position; the order is strict when the retained
candidates begin at pairwise distinct addresses. Nothing in the build rejects two retained
candidates with the same begin address. -/
theorem build_ascending_and_numbered (L : Loader) (s : State) :
    (∀ entries : List unw_mmap_entry_t, (mmap_init_mmap L entries s).1 = 0 →
      (mmap_init_mmap L entries s).2._memory_map.Pairwise (fun a b => a.beg_ip ≤ b.beg_ip) ∧
      (∀ (i : Nat) (e : mmap_entry_t),
        (mmap_init_mmap L entries s).2._memory_map[i]? = some e → e.id = i) ∧
      (((retained_entries entries).map (fun e => e.beg_ip)).Nodup →
        (mmap_init_mmap L entries s).2._memory_map.Pairwise
          (fun a b => a.beg_ip < b.beg_ip))) ∧
    (∀ (fopen : String → Option maps_file) (procdir : String),
      (mmap_init_procdir fopen L procdir s).1 = 0 →
      (mmap_init_procdir fopen L procdir s).2._memory_map.Pairwise
        (fun a b => a.beg_ip ≤ b.beg_ip) ∧
      (∀ (i : Nat) (e : mmap_entry_t),
        (mmap_init_procdir fopen L procdir s).2._memory_map[i]? = some e → e.id = i) ∧
      (∀ f, fopen (procdir ++ "/maps") = some f →
        ((retained_lines f.lines).map (fun l => l.ip_beg)).Nodup →
        (mmap_init_procdir fopen L procdir s).2._memory_map.Pairwise
          (fun a b => a.beg_ip < b.beg_ip))) := by
  constructor
  · intro entries _
    obtain ⟨-, -, hreg, hsorted, hid, -, -⟩ := mmap_init_mmap_spec L entries s
    refine ⟨hsorted, hid, fun hnd => table_strict_of_regions _ _ hreg hsorted ?_⟩
    have hsub : ((retained_entries (visited_entries entries)).map (fun e => e.beg_ip)).Sublist
        ((retained_entries entries).map (fun e => e.beg_ip)) :=
      (retained_visited_sublist entries).map _
    have := hsub.nodup hnd
    simpa [List.map_map, Function.comp_def, unw_mmap_entry_t.region] using this
  · intro fopen procdir hok
    rcases mmap_init_procdir_cases fopen L procdir s with ⟨-, h⟩ | ⟨f, -, -, h1, -⟩ |
      ⟨f, mem, cur, hf, -, h, -, hmem⟩
    · rw [h] at hok; simp at hok
    · rw [h1] at hok; exact absurd hok (by decide)
    · obtain ⟨-, -, hreg, hsorted, hid, -, -⟩ := finish_init_spec L mem cur
        { mmap_clear s with _memory_map := calloc f.nb_entries,
                            _memory_map_size := f.nb_entries }
      rw [← h] at hreg hsorted hid
      rw [hmem] at hreg
      refine ⟨hsorted, hid, fun f2 hf2 hnd => table_strict_of_regions _ _ hreg hsorted ?_⟩
      rw [hf] at hf2
      obtain rfl := Option.some.inj hf2
      simpa [List.map_map, Function.comp_def, maps_line.region] using hnd

/-- C2 at the sample inputs: the supplied list and the maps file both build, and both
have pairwise distinct begin addresses. -/
theorem build_ascending_and_numbered_witness :
    (mmap_init_mmap sample_loader sample_entries State.initial).1 = 0 ∧
    (mmap_init_mmap sample_loader sample_entries State.initial).2._memory_map.Pairwise
      (fun a b => a.beg_ip < b.beg_ip) ∧
    (mmap_init_procdir (fopen_const sample_maps) sample_loader "/proc/self/"
      State.initial).1 = 0 ∧
    (mmap_init_procdir (fopen_const sample_maps) sample_loader "/proc/self/"
      State.initial).2._memory_map.Pairwise (fun a b => a.beg_ip < b.beg_ip) :=
  ⟨by decide,
    ((build_ascending_and_numbered sample_loader State.initial).1 sample_entries
      (by decide)).2.2 (by decide),
    by decide,
    ((build_ascending_and_numbered sample_loader State.initial).2 (fopen_const sample_maps)
      "/proc/self/" (by decide)).2.2 sample_maps rfl (by decide)⟩

/-- C2 as stated fails: two supplied mappings that begin at the same address build
successfully, and the two regions of the table are not strictly ascending. -/
theorem build_strictly_ascending_counterexample :
    (mmap_init_mmap sample_loader sample_entries_same_begin State.initial).1 = 0 ∧
    ¬ (∀ (i : Nat) (a b : mmap_entry_t),
      (mmap_init_mmap sample_loader sample_entries_same_begin State.initial).2._memory_map[i]?
        = some a →
      (mmap_init_mmap sample_loader sample_entries_same_begin
        State.initial).2._memory_map[i + 1]? = some b →
      a.beg_ip < b.beg_ip) :=
  ⟨by decide, fun h => absurd
    (h 0 ⟨0, 0, 0x1000, 0x2000, "/bin/a", 7, 107⟩ ⟨1, 0, 0x1000, 0x3000, "/lib/b", 8, 108⟩
      (by decide) (by decide)) (by decide)⟩

/-- C3, as the code has it: a build that returned 0 keeps whatever overlap its input has,
since neither build compares ranges. When the retained candidates are pairwise disjoint,
so are the regions of the table, from either source. -/
theorem build_keeps_disjoint_ranges (L : Loader) (s : State) :
    (∀ entries : List unw_mmap_entry_t, (mmap_init_mmap L entries s).1 = 0 →
      (retained_entries entries).Pairwise
        (fun x y => ranges_disjoint x.beg_ip x.end_ip y.beg_ip y.end_ip) →
      (mmap_init_mmap L entries s).2._memory_map.Pairwise
        (fun x y => ranges_disjoint x.beg_ip x.end_ip y.beg_ip y.end_ip)) ∧
    (∀ (fopen : String → Option maps_file) (procdir : String) (f : maps_file),
      (mmap_init_procdir fopen L procdir s).1 = 0 →
      fopen (procdir ++ "/maps") = some f →
      (retained_lines f.lines).Pairwise
        (fun x y => ranges_disjoint x.ip_beg x.ip_end y.ip_beg y.ip_end) →
      (mmap_init_procdir fopen L procdir s).2._memory_map.Pairwise
        (fun x y => ranges_disjoint x.beg_ip x.end_ip y.beg_ip y.end_ip)) := by
  constructor
  · intro entries _ hdis
    obtain ⟨-, -, hreg, -, -, -, -⟩ := mmap_init_mmap_spec L entries s
    exact table_disjoint_of_regions _ _ hreg
      (List.pairwise_map.2 (hdis.sublist (retained_visited_sublist entries)))
  · intro fopen procdir f hok hf hdis
    rcases mmap_init_procdir_cases fopen L procdir s with ⟨-, h⟩ | ⟨f2, -, -, h1, -⟩ |
      ⟨f2, mem, cur, hf2, -, h, -, hmem⟩
    · rw [h] at hok; simp at hok
    · rw [h1] at hok; exact absurd hok (by decide)
    · obtain ⟨-, -, hreg, -, -, -, -⟩ := finish_init_spec L mem cur
        { mmap_clear s with _memory_map := calloc f2.nb_entries,
                            _memory_map_size := f2.nb_entries }
      rw [← h] at hreg
      rw [hmem] at hreg
      rw [hf] at hf2
      obtain rfl := Option.some.inj hf2
      exact table_disjoint_of_regions _ _ hreg (List.pairwise_map.2 hdis)

/-- C3 at the sample inputs: the supplied list and the maps file both build and both have
pairwise disjoint ranges. -/
theorem build_keeps_disjoint_ranges_witness :
    (mmap_init_mmap sample_loader sample_entries State.initial).1 = 0 ∧
    (mmap_init_mmap sample_loader sample_entries State.initial).2._memory_map.Pairwise
      (fun x y => ranges_disjoint x.beg_ip x.end_ip y.beg_ip y.end_ip) ∧
    (mmap_init_procdir (fopen_const sample_maps) sample_loader "/proc/self/"
      State.initial).1 = 0 ∧
    (mmap_init_procdir (fopen_const sample_maps) sample_loader "/proc/self/"
      State.initial).2._memory_map.Pairwise
      (fun x y => ranges_disjoint x.beg_ip x.end_ip y.beg_ip y.end_ip) :=
  ⟨by decide,
    (build_keeps_disjoint_ranges sample_loader State.initial).1 sample_entries (by decide)
      ((by decide : (retained_entries sample_entries).Pairwise
        (fun x y => x.end_ip ≤ y.beg_ip ∨ y.end_ip ≤ x.beg_ip)).imp ranges_disjoint_of_le),
    by decide,
    (build_keeps_disjoint_ranges sample_loader State.initial).2 (fopen_const sample_maps)
      "/proc/self/" sample_maps (by decide) rfl
      ((by decide : (retained_lines sample_maps.lines).Pairwise
        (fun x y => x.ip_end ≤ y.ip_beg ∨ y.ip_end ≤ x.ip_beg)).imp ranges_disjoint_of_le)⟩

/-- C3 as stated fails: two supplied mappings that overlap build successfully, and the
two regions of the table both hold the address `0x2800`. -/
theorem build_no_overlap_counterexample :
    (mmap_init_mmap sample_loader sample_entries_overlap State.initial).1 = 0 ∧
    ¬ (∀ (i j : Nat) (a b : mmap_entry_t), i ≠ j →
      (mmap_init_mmap sample_loader sample_entries_overlap State.initial).2._memory_map[i]?
        = some a →
      (mmap_init_mmap sample_loader sample_entries_overlap State.initial).2._memory_map[j]?
        = some b →
      ranges_disjoint a.beg_ip a.end_ip b.beg_ip b.end_ip) :=
  ⟨by decide, fun h =>
    h 0 1 ⟨0, 0, 0x1000, 0x3000, "/bin/a", 7, 107⟩ ⟨1, 0, 0x2000, 0x4000, "/lib/b", 8, 108⟩
      (by decide) (by decide) (by decide) 0x2800 (by decide)⟩

end EhElf

/-! ## The handler cache across operations -/

namespace EhElf

/-- A property of the cache that every single resolution preserves is preserved by
resolving the handlers of a whole table. -/
theorem mmap_dlopen_eh_elfs_cache_inv (P : List dl_obj_list_t → Prop)
    (hP : ∀ (L : Loader) (q : String) (s : State),
      P s._dl_obj_list → P (mmap_dlopen_eh_elf L q s).2._dl_obj_list)
    (L : Loader) (es : List mmap_entry_t) (s : State) (h : P s._dl_obj_list) :
    P (mmap_dlopen_eh_elfs L es s).2.2._dl_obj_list := by
  induction es generalizing s with
  | nil => simpa [mmap_dlopen_eh_elfs] using h
  | cons e es ih =>
    unfold mmap_dlopen_eh_elfs
    have h1 := hP L e.object_name s h
    rcases hr : mmap_dlopen_eh_elf L e.object_name s with ⟨_ | elt, s1⟩
    · rw [hr] at h1; simpa using h1
    · rw [hr] at h1; simpa using ih s1 h1

theorem finish_init_cache_inv (P : List dl_obj_list_t → Prop)
    (hP : ∀ (L : Loader) (q : String) (s : State),
      P s._dl_obj_list → P (mmap_dlopen_eh_elf L q s).2._dl_obj_list)
    (L : Loader) (mem : List mmap_entry_t) (size : Nat) (s : State) (h : P s._dl_obj_list) :
    P (finish_init L mem size s).2._dl_obj_list := by
  obtain ⟨s2, hc, -, -, -, -, hcache, -, -, -⟩ := finish_init_eq L mem size s
  rw [hcache]
  exact mmap_dlopen_eh_elfs_cache_inv P hP L _ s2 (by rw [hc]; exact h)

theorem mmap_init_mmap_cache_inv (P : List dl_obj_list_t → Prop)
    (hP : ∀ (L : Loader) (q : String) (s : State),
      P s._dl_obj_list → P (mmap_dlopen_eh_elf L q s).2._dl_obj_list)
    (L : Loader) (entries : List unw_mmap_entry_t) (s : State) (h : P s._dl_obj_list) :
    P (mmap_init_mmap L entries s).2._dl_obj_list := by
  rw [mmap_init_mmap_eq]
  exact finish_init_cache_inv P hP L _ _ _ h

theorem mmap_init_procdir_cache_inv (P : List dl_obj_list_t → Prop)
    (hP : ∀ (L : Loader) (q : String) (s : State),
      P s._dl_obj_list → P (mmap_dlopen_eh_elf L q s).2._dl_obj_list)
    (fopen : String → Option maps_file) (L : Loader) (procdir : String) (s : State)
    (h : P s._dl_obj_list) : P (mmap_init_procdir fopen L procdir s).2._dl_obj_list := by
  rcases mmap_init_procdir_cases fopen L procdir s with ⟨-, h1⟩ | ⟨f, -, -, -, -, h1, -⟩ |
    ⟨f, mem, cur, -, -, h1, -, -⟩
  · rw [h1]; exact h
  · rw [h1]; exact h
  · rw [h1]; exact finish_init_cache_inv P hP L _ _ _ h

/-- A property of the cache that every single resolution preserves is preserved by every
operation on the registry. -/
theorem op_run_cache_inv (P : List dl_obj_list_t → Prop)
    (hP : ∀ (L : Loader) (q : String) (s : State),
      P s._dl_obj_list → P (mmap_dlopen_eh_elf L q s).2._dl_obj_list)
    (op : Op) (s : State) (h : P s._dl_obj_list) : P (op.run s)._dl_obj_list := by
  cases op with
  | init_local fopen L => exact mmap_init_procdir_cache_inv P hP fopen L _ s h
  | init_pid fopen L pid => exact mmap_init_procdir_cache_inv P hP fopen L _ s h
  | init_procdir fopen L procdir => exact mmap_init_procdir_cache_inv P hP fopen L _ s h
  | init_mmap L entries => exact mmap_init_mmap_cache_inv P hP L entries s h
  | resolve L q => exact hP L q s h
  | clear => exact h

theorem run_ops_cache_inv (P : List dl_obj_list_t → Prop)
    (hP : ∀ (L : Loader) (q : String) (s : State),
      P s._dl_obj_list → P (mmap_dlopen_eh_elf L q s).2._dl_obj_list)
    (ops : List Op) (s : State) (h : P s._dl_obj_list) : P (run_ops ops s)._dl_obj_list := by
  induction ops generalizing s with
  | nil => exact h
  | cons op ops ih => exact ih (op.run s) (op_run_cache_inv P hP op s h)

/-- The node the scan finds for `p` is not displaced by resolving any object. -/
theorem find_dl_obj_preserved (p : String) (e : dl_obj_list_t) (L : Loader) (q : String)
    (s : State) (h : find_dl_obj p s._dl_obj_list = some e) :
    find_dl_obj p (mmap_dlopen_eh_elf L q s).2._dl_obj_list = some e := by
  rcases mmap_dlopen_eh_elf_cases L q s with ⟨x, -, h2⟩ | ⟨h1, -, x, -, h3, h4⟩ | ⟨-, -, -, h4⟩
  · rw [h2]; exact h
  · rw [h4]
    have hne : x.object_name ≠ p := by
      intro heq
      rw [h3] at heq
      rw [heq, h] at h1
      exact absurd h1 (by simp)
    simp [find_dl_obj, hne, h]
  · rw [h4]; exact h

/-- After a successful resolution of `p` the scan finds the returned node. -/
theorem find_dl_obj_after_resolve (L : Loader) (p : String) (s : State) (e : dl_obj_list_t)
    (h : (mmap_dlopen_eh_elf L p s).1 = some e) :
    find_dl_obj p (mmap_dlopen_eh_elf L p s).2._dl_obj_list = some e := by
  rcases mmap_dlopen_eh_elf_cases L p s with ⟨x, h1, h2⟩ | ⟨-, -, x, h2, h3, h4⟩ | ⟨-, -, h2, -⟩
  · rw [h2] at h ⊢
    simp only [Option.some.injEq] at h
    subst h
    exact h1
  · rw [h2] at h
    simp only [Option.some.injEq] at h
    subst h
    rw [h4]
    simp [find_dl_obj, h3]
  · rw [h2] at h; exact absurd h (by simp)

/-- C4: once `mmap_dlopen_eh_elf p` has returned a node `e`, a later call for the same
path, after any sequence of registry operations and with whatever loader, returns the
same node `e` and leaves the whole state as it found it: the cache is unchanged and the
trace of loader calls gets no new `dlopen` or `dlsym`. -/
theorem resolve_idempotent (L : Loader) (p : String) (s : State) (e : dl_obj_list_t)
    (ops : List Op) (L2 : Loader) (h : (mmap_dlopen_eh_elf L p s).1 = some e) :
    (mmap_dlopen_eh_elf L2 p (run_ops ops (mmap_dlopen_eh_elf L p s).2)).1 = some e ∧
    (mmap_dlopen_eh_elf L2 p (run_ops ops (mmap_dlopen_eh_elf L p s).2)).2 =
      run_ops ops (mmap_dlopen_eh_elf L p s).2 ∧
    (mmap_dlopen_eh_elf L2 p (run_ops ops (mmap_dlopen_eh_elf L p s).2)).2.dl_trace =
      (run_ops ops (mmap_dlopen_eh_elf L p s).2).dl_trace ∧
    (mmap_dlopen_eh_elf L2 p (run_ops ops (mmap_dlopen_eh_elf L p s).2)).2._dl_obj_list =
      (run_ops ops (mmap_dlopen_eh_elf L p s).2)._dl_obj_list := by
  have h1 := find_dl_obj_after_resolve L p s e h
  have h2 := run_ops_cache_inv (fun c => find_dl_obj p c = some e)
    (fun L q s hs => find_dl_obj_preserved p e L q s hs) ops _ h1
  have h3 := mmap_dlopen_eh_elf_hit L2 p _ e h2
  rw [h3]
  exact ⟨rfl, rfl, rfl, rfl⟩

/-- C4 at a sample: `/bin/a` is resolved on the empty cache, then a build and a clear
run, and the second resolution is given a loader that finds nothing. -/
theorem resolve_idempotent_witness :
    (mmap_dlopen_eh_elf sample_loader "/bin/a" State.initial).1 = some ⟨"/bin/a", 7, 107⟩ ∧
    (mmap_dlopen_eh_elf empty_loader "/bin/a"
      (run_ops [Op.init_mmap sample_loader sample_entries, Op.clear]
        (mmap_dlopen_eh_elf sample_loader "/bin/a" State.initial).2)).1 =
      some ⟨"/bin/a", 7, 107⟩ :=
  ⟨by decide,
    (resolve_idempotent sample_loader "/bin/a" State.initial ⟨"/bin/a", 7, 107⟩
      [Op.init_mmap sample_loader sample_entries, Op.clear] empty_loader (by decide)).1⟩

end EhElf

/-! ## Failed builds and the uninitialized registry -/

namespace EhElf

/-- C5: when the handler of some retained region cannot be resolved (its object is
neither in the cache nor loadable), the build returns -4 and afterwards every lookup
returns `NULL`. For `mmap_init_mmap` the list fits an `int` counter; for
`mmap_init_procdir` the maps file opened and the loop did not stop on the line count. -/
theorem init_fails_when_handler_missing (L : Loader) (s : State) :
    (∀ entries : List unw_mmap_entry_t, entries.length ≤ INT_MAX →
      (∃ e ∈ retained_entries entries,
        find_dl_obj e.object_name s._dl_obj_list = none ∧ ¬ L.loads e.object_name) →
      (mmap_init_mmap L entries s).1 = -4 ∧
      ∀ a, mmap_get_entry (mmap_init_mmap L entries s).2 a = none) ∧
    (∀ (fopen : String → Option maps_file) (procdir : String) (f : maps_file),
      fopen (procdir ++ "/maps") = some f →
      (mmap_init_procdir fopen L procdir s).1 ≠ -2 →
      (∃ l ∈ retained_lines f.lines,
        find_dl_obj l.path s._dl_obj_list = none ∧ ¬ L.loads l.path) →
      (mmap_init_procdir fopen L procdir s).1 = -4 ∧
      ∀ a, mmap_get_entry (mmap_init_procdir fopen L procdir s).2 a = none) := by
  constructor
  · intro entries hlen hex
    rw [← visited_entries_eq entries hlen] at hex
    have hcode := mmap_init_mmap_fail L entries s hex
    refine ⟨hcode, fun a => mmap_get_entry_not_done _ ?_ a⟩
    obtain ⟨-, -, -, -, -, -, h7⟩ := mmap_init_mmap_spec L entries s
    exact h7 (by rw [hcode]; decide)
  · intro fopen procdir f hf hne hex
    rcases mmap_init_procdir_cases fopen L procdir s with ⟨h0, -⟩ | ⟨f2, -, -, h1, -⟩ |
      ⟨f2, mem, cur, hf2, -, h, -, hmem⟩
    · rw [h0] at hf; exact absurd hf (by simp)
    · exact absurd h1 hne
    · rw [hf] at hf2
      obtain rfl := Option.some.inj hf2
      obtain ⟨l, hl, hl1, hl2⟩ := hex
      have hcode : (mmap_init_procdir fopen L procdir s).1 = -4 := by
        rw [h]
        apply finish_init_fail
        rw [hmem]
        exact ⟨l.region, List.mem_map_of_mem _ hl, hl1, hl2⟩
      refine ⟨hcode, fun a => mmap_get_entry_not_done _ ?_ a⟩
      cases hd : (mmap_init_procdir fopen L procdir s).2._mmap_init_done with
      | false => rfl
      | true =>
        have := (mmap_init_procdir_done_iff fopen L procdir s).1 hd
        rw [hcode] at this
        exact absurd this (by decide)

/-- C5 at the samples: three distinct objects of which the second, `/lib/c`, has no
companion module; an address inside the first candidate region is looked up afterwards. -/
theorem init_fails_when_handler_missing_witness :
    ((mmap_init_mmap sample_loader sample_entries_missing State.initial).1 = -4 ∧
      mmap_get_entry (mmap_init_mmap sample_loader sample_entries_missing State.initial).2
        0x1800 = none) ∧
    ((mmap_init_procdir (fopen_const sample_maps_missing) sample_loader "/proc/self/"
        State.initial).1 = -4 ∧
      mmap_get_entry (mmap_init_procdir (fopen_const sample_maps_missing) sample_loader
        "/proc/self/" State.initial).2 0x1800 = none) :=
  ⟨⟨((init_fails_when_handler_missing sample_loader State.initial).1 sample_entries_missing
        (by decide) ⟨⟨0x5000, 0x6000, 0, "/lib/c"⟩, by decide, by decide, by decide⟩).1,
      ((init_fails_when_handler_missing sample_loader State.initial).1 sample_entries_missing
        (by decide) ⟨⟨0x5000, 0x6000, 0, "/lib/c"⟩, by decide, by decide, by decide⟩).2
        0x1800⟩,
    ⟨((init_fails_when_handler_missing sample_loader State.initial).2
        (fopen_const sample_maps_missing) "/proc/self/" sample_maps_missing rfl (by decide)
        ⟨⟨0x5000, 0x6000, 'x', 0, 43, "/lib/c"⟩, by decide, by decide, by decide⟩).1,
      ((init_fails_when_handler_missing sample_loader State.initial).2
        (fopen_const sample_maps_missing) "/proc/self/" sample_maps_missing rfl (by decide)
        ⟨⟨0x5000, 0x6000, 'x', 0, 43, "/lib/c"⟩, by decide, by decide, by decide⟩).2
        0x1800⟩⟩

/-- C6, as the code has it: every build starts with `mmap_clear`, so a build that fails,
for whatever reason and from whatever prior state, leaves the registry uninitialized:
every lookup returns `NULL` afterwards. A table built earlier is not visible any more. -/
theorem failed_init_leaves_uninitialized (L : Loader) (s : State) (a : Nat) :
    (∀ entries : List unw_mmap_entry_t, (mmap_init_mmap L entries s).1 ≠ 0 →
      mmap_get_entry (mmap_init_mmap L entries s).2 a = none) ∧
    (∀ (fopen : String → Option maps_file) (procdir : String),
      (mmap_init_procdir fopen L procdir s).1 ≠ 0 →
      mmap_get_entry (mmap_init_procdir fopen L procdir s).2 a = none) := by
  constructor
  · intro entries hne
    apply mmap_get_entry_not_done
    cases hd : (mmap_init_mmap L entries s).2._mmap_init_done with
    | false => rfl
    | true => exact absurd ((mmap_init_mmap_done_iff L entries s).1 hd) hne
  · intro fopen procdir hne
    apply mmap_get_entry_not_done
    cases hd : (mmap_init_procdir fopen L procdir s).2._mmap_init_done with
    | false => rfl
    | true => exact absurd ((mmap_init_procdir_done_iff fopen L procdir s).1 hd) hne

/-- C6 at the samples: on a registry holding the table of the sample list, a build whose
second object has no companion module fails, and so does one whose maps file does not
open; address `0x1800`, inside a region of the earlier table, is then not found. -/
theorem failed_init_leaves_uninitialized_witness :
    mmap_get_entry (mmap_init_mmap sample_loader sample_entries_missing
      (mmap_init_mmap sample_loader sample_entries State.initial).2).2 0x1800 = none ∧
    mmap_get_entry (mmap_init_procdir (fun _ => none) sample_loader "/proc/self/"
      (mmap_init_mmap sample_loader sample_entries State.initial).2).2 0x1800 = none :=
  ⟨(failed_init_leaves_uninitialized sample_loader
      (mmap_init_mmap sample_loader sample_entries State.initial).2 0x1800).1
      sample_entries_missing (by decide),
    (failed_init_leaves_uninitialized sample_loader
      (mmap_init_mmap sample_loader sample_entries State.initial).2 0x1800).2
      (fun _ => none) "/proc/self/" (by decide)⟩

/-- C6 as stated fails: the registry holds the table of the sample list, in which
`0x1800` is found; after a build that fails on a missing companion module the same
lookup returns `NULL`. -/
theorem failed_init_keeps_table_counterexample :
    (mmap_init_mmap sample_loader sample_entries State.initial).1 = 0 ∧
    (mmap_init_mmap sample_loader sample_entries_missing
      (mmap_init_mmap sample_loader sample_entries State.initial).2).1 = -4 ∧
    mmap_get_entry (mmap_init_mmap sample_loader sample_entries State.initial).2 0x1800 =
      some ⟨0, 0, 0x1000, 0x2000, "/bin/a", 7, 107⟩ ∧
    mmap_get_entry (mmap_init_mmap sample_loader sample_entries_missing
      (mmap_init_mmap sample_loader sample_entries State.initial).2).2 0x1800 = none := by
  decide

theorem op_run_not_done (op : Op) (s : State) (hs : s._mmap_init_done = false)
    (hc : op.code s ≠ some 0) : (op.run s)._mmap_init_done = false := by
  cases op with
  | init_local fopen L =>
    cases hd : (mmap_init_procdir fopen L "/proc/self/" s).2._mmap_init_done with
    | false => exact hd
    | true =>
      exact absurd (congrArg some ((mmap_init_procdir_done_iff fopen L _ s).1 hd)) hc
  | init_pid fopen L pid =>
    cases hd : (mmap_init_procdir fopen L ("/proc/" ++ toString pid ++ "/") s).2._mmap_init_done
      with
    | false => exact hd
    | true =>
      exact absurd (congrArg some ((mmap_init_procdir_done_iff fopen L _ s).1 hd)) hc
  | init_procdir fopen L procdir =>
    cases hd : (mmap_init_procdir fopen L procdir s).2._mmap_init_done with
    | false => exact hd
    | true =>
      exact absurd (congrArg some ((mmap_init_procdir_done_iff fopen L _ s).1 hd)) hc
  | init_mmap L entries =>
    cases hd : (mmap_init_mmap L entries s).2._mmap_init_done with
    | false => exact hd
    | true =>
      exact absurd (congrArg some ((mmap_init_mmap_done_iff L entries s).1 hd)) hc
  | resolve L q => exact (mmap_dlopen_eh_elf_frame L q s).2.2.trans hs
  | clear => rfl

theorem run_ops_not_done (ops : List Op) (s : State) (hs : s._mmap_init_done = false)
    (h : no_init_succeeds ops s) : (run_ops ops s)._mmap_init_done = false := by
  induction ops generalizing s with
  | nil => exact hs
  | cons op ops ih => exact ih (op.run s) (op_run_not_done op s hs h.1) h.2

/-- C7: after `mmap_clear`, from any state, every lookup returns `NULL`; and so does
every lookup on a registry on which no init has succeeded yet, that is after any sequence
of operations from program start in which no init returned 0. -/
theorem lookup_fails_when_uninitialized (s : State) (a : Nat) (ops : List Op)
    (h : no_init_succeeds ops State.initial) :
    mmap_get_entry (mmap_clear s) a = none ∧
    mmap_get_entry State.initial a = none ∧
    mmap_get_entry (run_ops ops State.initial) a = none :=
  ⟨mmap_get_entry_not_done _ rfl a, mmap_get_entry_not_done _ rfl a,
    mmap_get_entry_not_done _ (run_ops_not_done ops _ rfl h) a⟩

/-- C7 at the samples: a registry whose table holds `0x1800` is cleared; and a registry
that has only seen a failed build and a resolution. -/
theorem lookup_fails_when_uninitialized_witness :
    mmap_get_entry (mmap_init_mmap sample_loader sample_entries State.initial).2 0x1800 ≠ none ∧
    mmap_get_entry (mmap_clear (mmap_init_mmap sample_loader sample_entries State.initial).2)
      0x1800 = none ∧
    mmap_get_entry (run_ops [Op.init_mmap sample_loader sample_entries_missing,
      Op.resolve sample_loader "/bin/a"] State.initial) 0x1800 = none :=
  ⟨by decide,
    (lookup_fails_when_uninitialized
      (mmap_init_mmap sample_loader sample_entries State.initial).2 0x1800
      [Op.init_mmap sample_loader sample_entries_missing, Op.resolve sample_loader "/bin/a"]
      ⟨by decide, by decide, trivial⟩).1,
    (lookup_fails_when_uninitialized
      (mmap_init_mmap sample_loader sample_entries State.initial).2 0x1800
      [Op.init_mmap sample_loader sample_entries_missing, Op.resolve sample_loader "/bin/a"]
      ⟨by decide, by decide, trivial⟩).2.2⟩

end EhElf

/-! ## What a successful build puts in the table -/

namespace EhElf

theorem retained_lines_length_le (ls : List maps_line) :
    (retained_lines ls).length ≤ ls.length :=
  List.length_filter_le _ _

/-- When every line read has a path shorter than the buffer, the loop does not overrun
`path[256]`. -/
theorem procdir_loop_overruns_of_fit (n : Nat) (ls : List maps_line) (cur : Nat)
    (h : ∀ l ∈ ls, l.path.length < PATH_BUF_SIZE) : procdir_loop_overruns n ls cur = false := by
  induction ls generalizing cur with
  | nil => rfl
  | cons l ls ih =>
    have hl : ¬ PATH_BUF_SIZE ≤ l.path.length := by
      have := h l (List.mem_cons_self _ _)
      omega
    have hls : ∀ x ∈ ls, x.path.length < PATH_BUF_SIZE :=
      fun x hx => h x (List.mem_cons_of_mem _ hx)
    unfold procdir_loop_overruns
    rw [if_neg hl]
    split_ifs
    · rfl
    · exact ih cur hls
    · exact ih cur hls
    · exact ih (cur + 1) hls

/-- The part of the build from a maps file that holds: when the file opens, no line read
overruns `path[256]`, the file delivers no more lines than the first pass counted and
every retained line names an object whose handler loads, the run stays within the path
buffer, `mmap_init_procdir` returns 0, the registry is initialized, and the table holds
exactly one region per line with a non-zero inode and execute permission (same begin,
end, load offset and path), ordered by ascending `beg_ip`; with no such line the table is
empty. -/
theorem procdir_builds_retained_lines (fopen : String → Option maps_file) (L : Loader)
    (procdir : String) (s : State) (f : maps_file)
    (hf : fopen (procdir ++ "/maps") = some f)
    (hfit : procdir_loop_overruns f.nb_entries f.lines 0 = false)
    (hcount : f.lines.length ≤ f.nb_entries)
    (hload : ∀ l ∈ retained_lines f.lines, L.loads l.path) :
    mmap_init_procdir_path_checked fopen L procdir s =
      some (mmap_init_procdir fopen L procdir s) ∧
    (mmap_init_procdir fopen L procdir s).1 = 0 ∧
    (mmap_init_procdir fopen L procdir s).2._mmap_init_done = true ∧
    (mmap_init_procdir fopen L procdir s).2._memory_map_size =
      (retained_lines f.lines).length ∧
    (mmap_init_procdir fopen L procdir s).2._memory_map.length =
      (retained_lines f.lines).length ∧
    ((mmap_init_procdir fopen L procdir s).2._memory_map.map mmap_entry_t.region).Perm
      ((retained_lines f.lines).map maps_line.region) ∧
    (mmap_init_procdir fopen L procdir s).2._memory_map.Pairwise
      (fun a b => a.beg_ip ≤ b.beg_ip) ∧
    (retained_lines f.lines = [] → (mmap_init_procdir fopen L procdir s).2._memory_map = []) := by
  have hchecked : mmap_init_procdir_path_checked fopen L procdir s =
      some (mmap_init_procdir fopen L procdir s) := by
    simp [mmap_init_procdir_path_checked, hf, hfit]
  refine ⟨hchecked, ?_⟩
  rcases mmap_init_procdir_cases fopen L procdir s with ⟨h0, -⟩ | ⟨f2, hf2, hl, -⟩ |
    ⟨f2, mem, cur, hf2, -, h, hcur, hmem⟩
  · rw [h0] at hf; exact absurd hf (by simp)
  · rw [hf] at hf2
    obtain rfl := Option.some.inj hf2
    obtain ⟨k, hk, hk2⟩ := (procdir_loop_error_iff _ _ _ _).1 hl
    have h1 := retained_lines_length_le (f.lines.take k)
    have h2 : (f.lines.take k).length ≤ k := List.length_take_le _ _
    omega
  · rw [hf] at hf2
    obtain rfl := Option.some.inj hf2
    obtain ⟨-, hsize, hreg, hsorted, -, hdone, -⟩ := finish_init_spec L mem cur
      { mmap_clear s with _memory_map := calloc f.nb_entries,
                          _memory_map_size := f.nb_entries }
    have hok : (mmap_init_procdir fopen L procdir s).1 = 0 := by
      rw [h]
      apply finish_init_ok
      rw [hmem]
      intro r hr
      obtain ⟨l, hl, rfl⟩ := List.mem_map.1 hr
      exact hload l hl
    rw [← h] at hsize hreg hsorted hdone
    rw [hmem] at hreg
    have hlen : (mmap_init_procdir fopen L procdir s).2._memory_map.length =
        (retained_lines f.lines).length := by
      simpa using hreg.length_eq
    refine ⟨hok, hdone hok, hsize.trans hcur, hlen, hreg, hsorted, fun hnil => ?_⟩
    rw [hnil] at hlen
    exact List.length_eq_zero.1 hlen

/-- The three-line sample, whose paths fit the buffer: two executable file mappings and
one anonymous mapping give a table of exactly two regions. -/
theorem procdir_builds_retained_lines_sample :
    sample_maps.lines.length = 3 ∧
    (mmap_init_procdir (fopen_const sample_maps) sample_loader "/proc/self/"
      State.initial).1 = 0 ∧
    (mmap_init_procdir (fopen_const sample_maps) sample_loader "/proc/self/"
      State.initial).2._memory_map.length = 2 :=
  ⟨by decide,
    (procdir_builds_retained_lines (fopen_const sample_maps) sample_loader "/proc/self/"
      State.initial sample_maps rfl (by decide) (by decide) (by decide)).2.1,
    (procdir_builds_retained_lines (fopen_const sample_maps) sample_loader "/proc/self/"
      State.initial sample_maps rfl (by decide) (by decide) (by decide)).2.2.2.2.1⟩

set_option maxRecDepth 16384 in
/-- C8 at a failing input: a maps file of one line, counted as one, whose line is an
executable file mapping with a non-zero inode, of an object whose handler loads, and with
a path of 307 characters. Decoding that line copies 308 bytes into `path[256]`: the loop
overruns the buffer and the run has no defined result, where the claim has it return 0
with the region of the line in the table. -/
theorem procdir_long_path_overruns :
    sample_maps_long_path.lines.length = sample_maps_long_path.nb_entries ∧
    retained_lines sample_maps_long_path.lines = sample_maps_long_path.lines ∧
    sample_maps_long_path.lines.map (fun l => l.path.length) = [307] ∧
    uniform_loader.loads sample_long_path ∧
    procdir_loop_overruns sample_maps_long_path.nb_entries sample_maps_long_path.lines 0
      = true ∧
    mmap_init_procdir_path_checked (fopen_const sample_maps_long_path) uniform_loader
      "/proc/self/" State.initial = none := by
  decide

/-- The part of the build from a supplied list that holds in the embedding, which has
neither a heap nor a width for `count`: for a list whose length fits the `int` loop
counter and whose retained entries all name an object whose handler loads,
`mmap_init_mmap` returns 0, the registry is initialized, and the table holds exactly one
region per entry whose name does not begin with `[` (same begin, end, offset and name)
and nothing else, ordered by ascending `beg_ip`. On the source this is the call made at
program start or after an earlier build; a call made after `mmap_clear` frees the freed
table again. -/
theorem init_mmap_builds_retained_entries (L : Loader) (entries : List unw_mmap_entry_t)
    (s : State) (hlen : entries.length ≤ INT_MAX)
    (hload : ∀ e ∈ retained_entries entries, L.loads e.object_name) :
    (mmap_init_mmap L entries s).1 = 0 ∧
    (mmap_init_mmap L entries s).2._mmap_init_done = true ∧
    (mmap_init_mmap L entries s).2._memory_map_size = (retained_entries entries).length ∧
    (mmap_init_mmap L entries s).2._memory_map.length = (retained_entries entries).length ∧
    ((mmap_init_mmap L entries s).2._memory_map.map mmap_entry_t.region).Perm
      ((retained_entries entries).map unw_mmap_entry_t.region) ∧
    (mmap_init_mmap L entries s).2._memory_map.Pairwise (fun a b => a.beg_ip ≤ b.beg_ip) := by
  obtain ⟨-, hsize, hreg, hsorted, -, hdone, -⟩ := mmap_init_mmap_spec L entries s
  rw [visited_entries_eq entries hlen] at hsize hreg
  have hok := mmap_init_mmap_ok L entries s hload
  exact ⟨hok, hdone hok, hsize, by simpa using hreg.length_eq, hreg, hsorted⟩

/-- The sample list, on a registry that already holds the two-region table of another
list: one `[stack]` entry among two object mappings gives exactly two regions, those of
the new list. -/
theorem init_mmap_builds_retained_entries_sample :
    sample_entries.length = 3 ∧
    (mmap_init_mmap sample_loader sample_entries
      (mmap_init_mmap sample_loader sample_entries_overlap State.initial).2).1 = 0 ∧
    (mmap_init_mmap sample_loader sample_entries
      (mmap_init_mmap sample_loader sample_entries_overlap
        State.initial).2).2._memory_map.length = 2 :=
  ⟨by decide,
    (init_mmap_builds_retained_entries sample_loader sample_entries
      (mmap_init_mmap sample_loader sample_entries_overlap State.initial).2
      (by decide) (by decide)).1,
    (init_mmap_builds_retained_entries sample_loader sample_entries
      (mmap_init_mmap sample_loader sample_entries_overlap State.initial).2
      (by decide) (by decide)).2.2.2.1⟩

theorem int_of_size_t_two_pow_31 : (int_of_size_t 2147483648).toNat = 0 := by
  decide

/-- A list of `2 ^ 31` entries is cast to a negative `int`: the loop visits none. -/
theorem visited_entries_of_length (entries : List unw_mmap_entry_t)
    (h : entries.length = 2147483648) : visited_entries entries = [] := by
  unfold visited_entries
  rw [h, int_of_size_t_two_pow_31]
  rfl

/-- When the loop visits no entry the build succeeds with an empty table. -/
theorem mmap_init_mmap_of_visited_nil (L : Loader) (entries : List unw_mmap_entry_t)
    (s : State) (h : visited_entries entries = []) :
    (mmap_init_mmap L entries s).1 = 0 ∧
    (mmap_init_mmap L entries s).2._mmap_init_done = true ∧
    (mmap_init_mmap L entries s).2._memory_map = [] := by
  obtain ⟨-, -, hreg, -, -, hdone, -⟩ := mmap_init_mmap_spec L entries s
  obtain ⟨-, a2⟩ := mmap_init_mmap_array entries
  have hok : (mmap_init_mmap L entries s).1 = 0 := by
    rw [mmap_init_mmap_eq]
    apply finish_init_ok
    rw [a2, h]
    intro r hr
    simp [retained_entries] at hr
  rw [h] at hreg
  have hnil : (mmap_init_mmap L entries s).2._memory_map.map mmap_entry_t.region = [] := by
    simpa [retained_entries] using hreg
  exact ⟨hok, hdone hok, List.map_eq_nil_iff.1 hnil⟩

/-- C9 at a failing input: a supplied list of `2 ^ 31` entries, each the mapping of
`/bin/a`, whose handler loads, none of them named `[...`, given at program start.
`(int)count` is negative, the `for` loop visits no entry, and `mmap_init_mmap` returns 0
with an initialized, empty table, where the claim has the table consist of the `2 ^ 31`
retained entries. -/
theorem init_mmap_skips_entries_beyond_int :
    sample_entries_huge.length = 2147483648 ∧
    (retained_entries sample_entries_huge).length = 2147483648 ∧
    sample_loader.loads "/bin/a" ∧
    (mmap_init_mmap sample_loader sample_entries_huge State.initial).1 = 0 ∧
    (mmap_init_mmap sample_loader sample_entries_huge State.initial).2._mmap_init_done = true ∧
    (mmap_init_mmap sample_loader sample_entries_huge State.initial).2._memory_map = [] := by
  have hlen : sample_entries_huge.length = 2147483648 := List.length_replicate _ _
  have hret : retained_entries sample_entries_huge = sample_entries_huge :=
    List.filter_replicate_of_pos (by decide)
  refine ⟨hlen, by rw [hret]; exact hlen, by decide, ?_⟩
  exact mmap_init_mmap_of_visited_nil sample_loader sample_entries_huge State.initial
    (visited_entries_of_length _ hlen)

/-! ## The line-count check -/

/-- C10, as the code has it: the check compares the number of lines retained so far, not
the number of lines read, with the first-pass count. `mmap_init_procdir` returns -2, and
leaves the registry uninitialized, exactly when a line is read after `nb_entries` lines
have been retained; a line read earlier is processed like any other, also when it is
beyond the first-pass count. -/
theorem line_count_error_iff (fopen : String → Option maps_file) (L : Loader)
    (procdir : String) (s : State) (f : maps_file)
    (hf : fopen (procdir ++ "/maps") = some f) :
    ((mmap_init_procdir fopen L procdir s).1 = -2 ↔
      ∃ k, k < f.lines.length ∧ f.nb_entries ≤ (retained_lines (f.lines.take k)).length) ∧
    ((mmap_init_procdir fopen L procdir s).1 = -2 →
      (mmap_init_procdir fopen L procdir s).2._mmap_init_done = false ∧
      ∀ a, mmap_get_entry (mmap_init_procdir fopen L procdir s).2 a = none) := by
  have hiff := procdir_loop_error_iff f.nb_entries f.lines (calloc f.nb_entries) 0
  simp only [Nat.zero_add] at hiff
  rcases mmap_init_procdir_cases fopen L procdir s with ⟨h0, -⟩ | ⟨f2, hf2, hl, h1, h2, -⟩ |
    ⟨f2, mem, cur, hf2, hl, h, -, -⟩
  · rw [h0] at hf; exact absurd hf (by simp)
  · rw [hf] at hf2
    obtain rfl := Option.some.inj hf2
    exact ⟨⟨fun _ => hiff.1 hl, fun _ => h1⟩,
      fun _ => ⟨h2, fun a => mmap_get_entry_not_done _ h2 a⟩⟩
  · rw [hf] at hf2
    obtain rfl := Option.some.inj hf2
    have hcode : (mmap_init_procdir fopen L procdir s).1 ≠ -2 := by
      rw [h]
      rcases (finish_init_spec L mem cur _).1 with h4 | h4 <;> rw [h4] <;> decide
    refine ⟨⟨fun hc => absurd hc hcode, fun hex => ?_⟩, fun hc => absurd hc hcode⟩
    obtain ⟨m, hm⟩ := hiff.2 hex
    rw [hm] at hl
    exact absurd hl (by simp)

/-- C10 at a sample: the first pass counted one line, the second reads two executable
file mappings; the second line is read when one line has been retained. -/
theorem line_count_error_iff_witness :
    (mmap_init_procdir (fopen_const sample_maps_overfull) sample_loader "/proc/self/"
      State.initial).1 = -2 ∧
    mmap_get_entry (mmap_init_procdir (fopen_const sample_maps_overfull) sample_loader
      "/proc/self/" State.initial).2 0x1800 = none :=
  ⟨((line_count_error_iff (fopen_const sample_maps_overfull) sample_loader "/proc/self/"
      State.initial sample_maps_overfull rfl).1).2 ⟨1, by decide, by decide⟩,
    ((line_count_error_iff (fopen_const sample_maps_overfull) sample_loader "/proc/self/"
      State.initial sample_maps_overfull rfl).2 (by decide)).2 0x1800⟩

/-- C10 as stated fails: the first pass counted one line, the second reads two, an
anonymous mapping and then an executable file mapping; the build returns 0 and the table
holds the region of the second line. -/
theorem excess_line_rejected_counterexample :
    sample_maps_grown.nb_entries < sample_maps_grown.lines.length ∧
    (mmap_init_procdir (fopen_const sample_maps_grown) sample_loader "/proc/self/"
      State.initial).1 = 0 ∧
    (mmap_init_procdir (fopen_const sample_maps_grown) sample_loader "/proc/self/"
      State.initial).2._mmap_init_done = true ∧
    (mmap_init_procdir (fopen_const sample_maps_grown) sample_loader "/proc/self/"
      State.initial).2._memory_map.map mmap_entry_t.region =
      [(0x1000, 0x2000, 0x1000, "/bin/a")] := by
  decide

end EhElf

/-! ## Ordering never fails -/

namespace EhElf

/-- The codes `mmap_init_procdir` can return. -/
theorem mmap_init_procdir_code (fopen : String → Option maps_file) (L : Loader)
    (procdir : String) (s : State) :
    (mmap_init_procdir fopen L procdir s).1 = 0 ∨ (mmap_init_procdir fopen L procdir s).1 = -1 ∨
    (mmap_init_procdir fopen L procdir s).1 = -2 ∨ (mmap_init_procdir fopen L procdir s).1 = -4 := by
  rcases mmap_init_procdir_cases fopen L procdir s with ⟨-, h⟩ | ⟨f, -, -, h1, -⟩ |
    ⟨f, mem, cur, -, -, h, -, -⟩
  · rw [h]; simp
  · rw [h1]; simp
  · rw [h]
    rcases (finish_init_spec L mem cur _).1 with h4 | h4 <;> rw [h4] <;> simp

/-- C11, as the code has it: equal begin addresses are not an error. `mmap_order_entries`
returns 0 for every array and keeps every region of it, so neither build ever takes the
`return -3` branch: `mmap_init_mmap` returns 0 or -4, `mmap_init_procdir` returns 0, -1,
-2 or -4. -/
theorem order_entries_never_fails :
    (∀ es : List mmap_entry_t, (mmap_order_entries es).1 = 0 ∧
      ((mmap_order_entries es).2.map mmap_entry_t.region).Perm (es.map mmap_entry_t.region)) ∧
    (∀ (L : Loader) (entries : List unw_mmap_entry_t) (s : State),
      (mmap_init_mmap L entries s).1 = 0 ∨ (mmap_init_mmap L entries s).1 = -4) ∧
    (∀ (fopen : String → Option maps_file) (L : Loader) (procdir : String) (s : State),
      (mmap_init_procdir fopen L procdir s).1 = 0 ∨
      (mmap_init_procdir fopen L procdir s).1 = -1 ∨
      (mmap_init_procdir fopen L procdir s).1 = -2 ∨
      (mmap_init_procdir fopen L procdir s).1 = -4) :=
  ⟨fun es => ⟨rfl, order_entries_region_perm es⟩,
    fun L entries s => (mmap_init_mmap_spec L entries s).1,
    fun fopen L procdir s => mmap_init_procdir_code fopen L procdir s⟩

/-- C11 as stated fails: two supplied mappings that begin at the same address are ordered
with code 0, the build returns 0 instead of -3, and the table holds both. -/
theorem equal_begin_rejected_counterexample :
    (retained_entries sample_entries_same_begin).map (fun e => e.beg_ip) = [0x1000, 0x1000] ∧
    (mmap_order_entries [⟨0, 0, 0x1000, 0x2000, "/bin/a", 0, 0⟩,
      ⟨1, 0, 0x1000, 0x3000, "/lib/b", 0, 0⟩]).1 = 0 ∧
    (mmap_init_mmap sample_loader sample_entries_same_begin State.initial).1 = 0 ∧
    (mmap_init_mmap sample_loader sample_entries_same_begin State.initial).2._memory_map.length
      = 2 := by
  decide

end EhElf

/-! ## Failed resolutions, and the shape of the cache -/

namespace EhElf

theorem open_modules_append (L : Loader) (t1 t2 : List dl_call) :
    open_modules L (t1 ++ t2) =
      t2.foldl (fun acc c =>
        match c with
        | .dlopen file => if L.dlopen file = 0 then acc else L.dlopen file :: acc
        | .dlclose handle => acc.erase handle
        | _ => acc) (open_modules L t1) := by
  unfold open_modules
  rw [List.foldl_append]

/-- C12: a resolution of a path that is not in the cache and whose companion module does
not open, or opens without exporting `_eh_elf`, returns `NULL` and leaves the cache, the
table and the init flag exactly as they were. When the module does not open the only
loader call is the `dlopen`; when the symbol is missing the calls are the `dlopen`, the
`dlsym` and a `dlclose` of the handle just obtained. In both cases the modules left open
are those open before the call. -/
theorem failed_resolve_is_atomic (L : Loader) (p : String) (s : State)
    (hmiss : find_dl_obj p s._dl_obj_list = none) (hfail : ¬ L.loads p) :
    (mmap_dlopen_eh_elf L p s).1 = none ∧
    (mmap_dlopen_eh_elf L p s).2._dl_obj_list = s._dl_obj_list ∧
    (mmap_dlopen_eh_elf L p s).2._memory_map = s._memory_map ∧
    (mmap_dlopen_eh_elf L p s).2._memory_map_size = s._memory_map_size ∧
    (mmap_dlopen_eh_elf L p s).2._mmap_init_done = s._mmap_init_done ∧
    (L.dlopen (basename p ++ ".eh_elf.so") = 0 →
      (mmap_dlopen_eh_elf L p s).2.dl_trace =
        s.dl_trace ++ [.dlopen (basename p ++ ".eh_elf.so")]) ∧
    (L.dlopen (basename p ++ ".eh_elf.so") ≠ 0 →
      (mmap_dlopen_eh_elf L p s).2.dl_trace =
        s.dl_trace ++ [.dlopen (basename p ++ ".eh_elf.so"),
          .dlsym (L.dlopen (basename p ++ ".eh_elf.so")) "_eh_elf",
          .dlclose (L.dlopen (basename p ++ ".eh_elf.so"))]) ∧
    open_modules L (mmap_dlopen_eh_elf L p s).2.dl_trace = open_modules L s.dl_trace := by
  obtain ⟨h1, h2⟩ := mmap_dlopen_eh_elf_fail L p s hmiss hfail
  obtain ⟨f1, f2, f3⟩ := mmap_dlopen_eh_elf_frame L p s
  refine ⟨h1, h2, f1, f2, f3, ?_⟩
  unfold Loader.loads at hfail
  by_cases hopen : L.dlopen (basename p ++ ".eh_elf.so") = 0
  · have ht : (mmap_dlopen_eh_elf L p s).2.dl_trace =
        s.dl_trace ++ [.dlopen (basename p ++ ".eh_elf.so")] := by
      simp [mmap_dlopen_eh_elf, hmiss, hopen, State.log]
    refine ⟨fun _ => ht, fun hne => absurd hopen hne, ?_⟩
    rw [ht, open_modules_append]
    simp [hopen]
  · have hsym : L.dlsym (L.dlopen (basename p ++ ".eh_elf.so")) "_eh_elf" = 0 := by
      by_contra hne
      exact hfail ⟨hopen, hne⟩
    have ht : (mmap_dlopen_eh_elf L p s).2.dl_trace =
        s.dl_trace ++ [.dlopen (basename p ++ ".eh_elf.so"),
          .dlsym (L.dlopen (basename p ++ ".eh_elf.so")) "_eh_elf",
          .dlclose (L.dlopen (basename p ++ ".eh_elf.so"))] := by
      simp [mmap_dlopen_eh_elf, hmiss, hopen, hsym, State.log]
    refine ⟨fun h0 => absurd h0 hopen, fun _ => ht, ?_⟩
    rw [ht, open_modules_append]
    simp [hopen]

/-- C12 at the samples: `/lib/c` is resolved on the empty cache, once with a loader that
finds no module and once with a loader whose modules export nothing. -/
theorem failed_resolve_is_atomic_witness :
    ((mmap_dlopen_eh_elf empty_loader "/lib/c" State.initial).1 = none ∧
      (mmap_dlopen_eh_elf empty_loader "/lib/c" State.initial).2._dl_obj_list = []) ∧
    ((mmap_dlopen_eh_elf symbol_less_loader "/lib/c" State.initial).1 = none ∧
      (mmap_dlopen_eh_elf symbol_less_loader "/lib/c" State.initial).2._dl_obj_list = [] ∧
      (mmap_dlopen_eh_elf symbol_less_loader "/lib/c" State.initial).2.dl_trace =
        [.dlopen "c.eh_elf.so", .dlsym 9 "_eh_elf", .dlclose 9] ∧
      open_modules symbol_less_loader
        (mmap_dlopen_eh_elf symbol_less_loader "/lib/c" State.initial).2.dl_trace = []) :=
  ⟨⟨(failed_resolve_is_atomic empty_loader "/lib/c" State.initial rfl (by decide)).1,
      (failed_resolve_is_atomic empty_loader "/lib/c" State.initial rfl (by decide)).2.1⟩,
    ⟨(failed_resolve_is_atomic symbol_less_loader "/lib/c" State.initial rfl (by decide)).1,
      (failed_resolve_is_atomic symbol_less_loader "/lib/c" State.initial rfl (by decide)).2.1,
      (failed_resolve_is_atomic symbol_less_loader "/lib/c" State.initial rfl
        (by decide)).2.2.2.2.2.2.1 (by decide),
      (failed_resolve_is_atomic symbol_less_loader "/lib/c" State.initial rfl
        (by decide)).2.2.2.2.2.2.2⟩⟩

theorem find_dl_obj_none_iff (p : String) (c : List dl_obj_list_t) :
    find_dl_obj p c = none ↔ p ∉ c.map (fun e => e.object_name) := by
  induction c with
  | nil => simp [find_dl_obj]
  | cons x xs ih =>
    by_cases hx : x.object_name = p
    · simp [find_dl_obj, hx]
    · have hx2 : ¬ p = x.object_name := fun h => hx h.symm
      simp only [find_dl_obj, hx, if_false, ih, List.map_cons, List.mem_cons, hx2, false_or]

/-- In a cache without two nodes of the same name, the scan for the name of a node finds
that node. -/
theorem find_dl_obj_of_mem (c : List dl_obj_list_t) (e : dl_obj_list_t)
    (hnd : (c.map (fun e => e.object_name)).Nodup) (he : e ∈ c) :
    find_dl_obj e.object_name c = some e := by
  induction c with
  | nil => simp at he
  | cons x xs ih =>
    rw [List.map_cons, List.nodup_cons] at hnd
    rcases List.mem_cons.1 he with rfl | hmem
    · simp [find_dl_obj]
    · have hne : x.object_name ≠ e.object_name := by
        intro heq
        apply hnd.1
        rw [heq]
        exact List.mem_map_of_mem (fun e => e.object_name) hmem
      simp only [find_dl_obj, hne, if_false]
      exact ih hnd.2 hmem

/-- A resolution keeps the names of the cache pairwise distinct. -/
theorem nodup_names_preserved (L : Loader) (q : String) (s : State)
    (h : (s._dl_obj_list.map (fun e => e.object_name)).Nodup) :
    ((mmap_dlopen_eh_elf L q s).2._dl_obj_list.map (fun e => e.object_name)).Nodup := by
  rcases mmap_dlopen_eh_elf_cases L q s with ⟨x, -, h2⟩ | ⟨h1, -, x, -, h3, h4⟩ | ⟨-, -, -, h4⟩
  · rw [h2]; exact h
  · rw [h4, List.map_cons, List.nodup_cons]
    refine ⟨?_, h⟩
    rw [h3]
    exact (find_dl_obj_none_iff q _).1 h1
  · rw [h4]; exact h

/-- A resolution keeps the cache it found as a suffix of the cache it leaves. -/
theorem suffix_preserved (c0 : List dl_obj_list_t) (L : Loader) (q : String) (s : State)
    (h : c0 <:+ s._dl_obj_list) : c0 <:+ (mmap_dlopen_eh_elf L q s).2._dl_obj_list := by
  rcases mmap_dlopen_eh_elf_cases L q s with ⟨x, -, h2⟩ | ⟨-, -, x, -, -, h4⟩ | ⟨-, -, -, h4⟩
  · rw [h2]; exact h
  · rw [h4]; exact h.trans (List.suffix_cons _ _)
  · rw [h4]; exact h

/-- C13: in every state reached from program start by any sequence of operations, with
whatever loaders and maps files, no two nodes of the cache have the same `object_name`;
and a node of the cache is what every later resolution of its path returns, after any
further operations, without any loader call or change of state: a path is loaded
successfully at most once. -/
theorem cache_one_entry_per_path (ops : List Op) :
    ((run_ops ops State.initial)._dl_obj_list.map (fun e => e.object_name)).Nodup ∧
    ∀ e ∈ (run_ops ops State.initial)._dl_obj_list, ∀ (ops2 : List Op) (L : Loader),
      mmap_dlopen_eh_elf L e.object_name (run_ops ops2 (run_ops ops State.initial)) =
        (some e, run_ops ops2 (run_ops ops State.initial)) := by
  have hnd := run_ops_cache_inv (fun c => (c.map (fun e => e.object_name)).Nodup)
    (fun L q s hs => nodup_names_preserved L q s hs) ops State.initial (by simp [State.initial])
  refine ⟨hnd, fun e he ops2 L => ?_⟩
  have h1 := find_dl_obj_of_mem _ e hnd he
  have h2 := run_ops_cache_inv (fun c => find_dl_obj e.object_name c = some e)
    (fun L q s hs => find_dl_obj_preserved e.object_name e L q s hs) ops2 _ h1
  exact mmap_dlopen_eh_elf_hit L e.object_name _ e h2

/-- C13 at a sample: a failed build, a build of the sample list, a clear and a resolution
of `/bin/a` leave two nodes, and a later resolution of `/lib/b`, after one more build and
with a loader that finds nothing, returns the node of `/lib/b`. -/
theorem cache_one_entry_per_path_witness :
    (run_ops [Op.init_mmap sample_loader sample_entries_missing,
      Op.init_mmap sample_loader sample_entries, Op.clear,
      Op.resolve sample_loader "/bin/a"] State.initial)._dl_obj_list =
      [⟨"/lib/b", 8, 108⟩, ⟨"/bin/a", 7, 107⟩] ∧
    (mmap_dlopen_eh_elf empty_loader "/lib/b"
      (run_ops [Op.init_mmap sample_loader sample_entries_overlap]
        (run_ops [Op.init_mmap sample_loader sample_entries_missing,
          Op.init_mmap sample_loader sample_entries, Op.clear,
          Op.resolve sample_loader "/bin/a"] State.initial))).1 = some ⟨"/lib/b", 8, 108⟩ :=
  ⟨by decide,
    congrArg Prod.fst ((cache_one_entry_per_path [Op.init_mmap sample_loader sample_entries_missing,
      Op.init_mmap sample_loader sample_entries, Op.clear,
      Op.resolve sample_loader "/bin/a"]).2 ⟨"/lib/b", 8, 108⟩ (by decide)
      [Op.init_mmap sample_loader sample_entries_overlap] empty_loader)⟩

end EhElf

/-! ## The cache only grows -/

namespace EhElf

theorem find_isSome_preserved (p : String) (L : Loader) (q : String) (s : State)
    (h : (find_dl_obj p s._dl_obj_list).isSome) :
    (find_dl_obj p (mmap_dlopen_eh_elf L q s).2._dl_obj_list).isSome := by
  obtain ⟨e, he⟩ := Option.isSome_iff_exists.1 h
  rw [find_dl_obj_preserved p e L q s he]
  rfl

/-- Resolving a table leaves a node in the cache for every entry of a leading part of the
table all of whose objects are cached or loadable, whatever happens further on. -/
theorem mmap_dlopen_eh_elfs_prefix (L : Loader) (es : List mmap_entry_t) (s : State) (k : Nat)
    (h : ∀ n ∈ (es.take k).map (fun e => e.object_name),
      (find_dl_obj n s._dl_obj_list).isSome ∨ L.loads n) :
    ∀ n ∈ (es.take k).map (fun e => e.object_name),
      (find_dl_obj n (mmap_dlopen_eh_elfs L es s).2.2._dl_obj_list).isSome := by
  induction es generalizing s k with
  | nil => simp
  | cons x xs ih =>
    cases k with
    | zero => simp
    | succ k =>
      rw [List.take_succ_cons, List.map_cons] at h ⊢
      have hx := h x.object_name (List.mem_cons_self _ _)
      have hstep : ∀ n, (find_dl_obj n s._dl_obj_list).isSome →
          (find_dl_obj n (mmap_dlopen_eh_elf L x.object_name s).2._dl_obj_list).isSome :=
        fun n hn => find_isSome_preserved n L x.object_name s hn
      have hxs : (find_dl_obj x.object_name
          (mmap_dlopen_eh_elf L x.object_name s).2._dl_obj_list).isSome := by
        rcases mmap_dlopen_eh_elf_cases L x.object_name s with ⟨e, h1, h2⟩ |
          ⟨-, -, e, h2, h3, h4⟩ | ⟨h1, h2, -, -⟩
        · rw [h2, h1]; rfl
        · rw [h4]; simp [find_dl_obj, h3]
        · rcases hx with hx | hx
          · rw [h1] at hx; exact absurd hx (by simp)
          · exact absurd hx h2
      have hsome : (mmap_dlopen_eh_elf L x.object_name s).1 ≠ none := by
        rcases mmap_dlopen_eh_elf_cases L x.object_name s with ⟨e, -, h2⟩ |
          ⟨-, -, e, h2, -, -⟩ | ⟨h1, h2, -, -⟩
        · rw [h2]; simp
        · rw [h2]; simp
        · rcases hx with hx | hx
          · rw [h1] at hx; exact absurd hx (by simp)
          · exact absurd hx h2
      unfold mmap_dlopen_eh_elfs
      rcases hr : mmap_dlopen_eh_elf L x.object_name s with ⟨_ | elt, s1⟩
      · rw [hr] at hsome; exact absurd rfl hsome
      · rw [hr] at hxs hstep
        simp only [] at hxs hstep ⊢
        have hrest := ih s1 k (fun n hn => by
          rcases h n (List.mem_cons_of_mem _ hn) with h1 | h1
          · exact Or.inl (hstep n h1)
          · exact Or.inr h1)
        intro n hn
        rcases List.mem_cons.1 hn with rfl | hn
        · exact mmap_dlopen_eh_elfs_cache_inv
            (fun c => (find_dl_obj x.object_name c).isSome)
            (fun L q s hs => find_isSome_preserved _ L q s hs) L xs s1 hxs
        · exact hrest n hn

/-- The same for `finish_init`, in terms of the table it leaves in the state. -/
theorem finish_init_prefix (L : Loader) (mem : List mmap_entry_t) (size : Nat) (s : State)
    (k : Nat)
    (h : ∀ e ∈ (finish_init L mem size s).2._memory_map.take k,
      (find_dl_obj e.object_name s._dl_obj_list).isSome ∨ L.loads e.object_name) :
    ∀ e ∈ (finish_init L mem size s).2._memory_map.take k,
      (find_dl_obj e.object_name (finish_init L mem size s).2._dl_obj_list).isSome := by
  obtain ⟨s2, hc, -, -, ht, -, hcache, -, -, -⟩ := finish_init_eq L mem size s
  have hname := mmap_dlopen_eh_elfs_map (fun e : mmap_entry_t => e.object_name)
    (fun _ _ _ => rfl) L (mmap_order_entries (mem.take size)).2 s2
  have htake : ((finish_init L mem size s).2._memory_map.take k).map (fun e => e.object_name) =
      ((mmap_order_entries (mem.take size)).2.take k).map (fun e => e.object_name) := by
    rw [ht, List.map_take, List.map_take, hname]
  have hp := mmap_dlopen_eh_elfs_prefix L (mmap_order_entries (mem.take size)).2 s2 k
    (fun n hn => by
      rw [← htake] at hn
      obtain ⟨e, he, rfl⟩ := List.mem_map.1 hn
      rw [hc]
      exact h e he)
  intro e he
  rw [hcache]
  exact hp e.object_name (by
    rw [← htake]
    exact List.mem_map_of_mem (fun e => e.object_name) he)

theorem op_run_suffix (op : Op) (s : State) :
    s._dl_obj_list <:+ (op.run s)._dl_obj_list :=
  op_run_cache_inv (fun c => s._dl_obj_list <:+ c)
    (fun L q s2 hs => suffix_preserved _ L q s2 hs) op s (List.suffix_refl _)

/-- C14: `mmap_clear` leaves the cache exactly as it is, and every operation, in
particular every init, succeeding or failing, leaves a cache that ends with the cache it
found: every earlier node is kept, unchanged and in place. Moreover, after an init that
reached the handler resolution, every region of a leading part of the table whose objects
are all cached or loadable has its node in the cache, also when the init fails on a later
region. -/
theorem cache_is_append_only (s : State) :
    (mmap_clear s)._dl_obj_list = s._dl_obj_list ∧
    (∀ op : Op, s._dl_obj_list <:+ (op.run s)._dl_obj_list) ∧
    (∀ (L : Loader) (entries : List unw_mmap_entry_t) (k : Nat),
      (∀ e ∈ (mmap_init_mmap L entries s).2._memory_map.take k,
        (find_dl_obj e.object_name s._dl_obj_list).isSome ∨ L.loads e.object_name) →
      ∀ e ∈ (mmap_init_mmap L entries s).2._memory_map.take k,
        (find_dl_obj e.object_name (mmap_init_mmap L entries s).2._dl_obj_list).isSome) ∧
    (∀ (fopen : String → Option maps_file) (L : Loader) (procdir : String) (k : Nat),
      ((mmap_init_procdir fopen L procdir s).1 = 0 ∨
        (mmap_init_procdir fopen L procdir s).1 = -4) →
      (∀ e ∈ (mmap_init_procdir fopen L procdir s).2._memory_map.take k,
        (find_dl_obj e.object_name s._dl_obj_list).isSome ∨ L.loads e.object_name) →
      ∀ e ∈ (mmap_init_procdir fopen L procdir s).2._memory_map.take k,
        (find_dl_obj e.object_name
          (mmap_init_procdir fopen L procdir s).2._dl_obj_list).isSome) := by
  refine ⟨rfl, fun op => op_run_suffix op s, fun L entries k h => ?_,
    fun fopen L procdir k hcode h => ?_⟩
  · rw [mmap_init_mmap_eq] at h ⊢
    exact finish_init_prefix L _ _ _ k h
  · rcases mmap_init_procdir_cases fopen L procdir s with ⟨-, h1⟩ | ⟨f, -, -, h1, -⟩ |
      ⟨f, mem, cur, -, -, h1, -, -⟩
    · rw [h1] at hcode; simp at hcode
    · rw [h1] at hcode; simp at hcode
    · rw [h1] at h ⊢
      exact finish_init_prefix L _ _ _ k h

/-- C14 at the samples: the build of three objects fails on `/lib/c`, the last region of
the ordered table; the nodes of `/bin/a` and `/lib/b`, resolved before it, are in the cache
afterwards, and a clear keeps them. -/
theorem cache_is_append_only_witness :
    (mmap_init_mmap sample_loader sample_entries_missing State.initial).1 = -4 ∧
    (find_dl_obj "/lib/b"
      (mmap_init_mmap sample_loader sample_entries_missing State.initial).2._dl_obj_list).isSome ∧
    (mmap_clear (mmap_init_mmap sample_loader sample_entries_missing
      State.initial).2)._dl_obj_list =
      (mmap_init_mmap sample_loader sample_entries_missing State.initial).2._dl_obj_list ∧
    (mmap_init_procdir (fopen_const sample_maps_missing) sample_loader "/proc/self/"
      State.initial).1 = -4 ∧
    (find_dl_obj "/bin/a"
      (mmap_init_procdir (fopen_const sample_maps_missing) sample_loader "/proc/self/"
        State.initial).2._dl_obj_list).isSome :=
  ⟨by decide,
    (cache_is_append_only State.initial).2.2.1 sample_loader sample_entries_missing 2
      (by decide) ⟨1, 0, 0x3000, 0x4000, "/lib/b", 8, 108⟩ (by decide),
    (cache_is_append_only
      (mmap_init_mmap sample_loader sample_entries_missing State.initial).2).1,
    by decide,
    (cache_is_append_only State.initial).2.2.2 (fopen_const sample_maps_missing) sample_loader
      "/proc/self/" 2 (by decide) (by decide) ⟨0, 0x1000, 0x1000, 0x2000, "/bin/a", 7, 107⟩
      (by decide)⟩

end EhElf

/-! ## What a lookup and a return code tell -/

namespace EhElf

/-- C15, as the code has it: the lookup returns the same value, `NULL`, on a registry
that is not initialized and on a registry whose table has no region holding the address
(initialized or not); the two situations cannot be told apart from the result. -/
theorem lookup_null_in_both_cases (s1 s2 : State) (a : Nat)
    (h1 : s1._mmap_init_done = false)
    (h2 : ∀ r ∈ s2._memory_map, ¬ in_range r.beg_ip r.end_ip a) :
    mmap_get_entry s1 a = none ∧ mmap_get_entry s2 a = none ∧
    mmap_get_entry s1 a = mmap_get_entry s2 a := by
  have e1 := mmap_get_entry_not_done s1 h1 a
  have e2 : mmap_get_entry s2 a = none := by
    cases hg : mmap_get_entry s2 a with
    | none => rfl
    | some p =>
      obtain ⟨-, hp, hpa⟩ := mmap_get_entry_sound s2 a p hg
      exact absurd hpa (h2 p hp)
  exact ⟨e1, e2, e1.trans e2.symm⟩

/-- C15 at the samples: address `0x2800`, in the gap between the two regions of the
built sample table, is looked up there and on the cleared registry. -/
theorem lookup_null_in_both_cases_witness :
    (mmap_init_mmap sample_loader sample_entries State.initial).2._mmap_init_done = true ∧
    mmap_get_entry (mmap_clear (mmap_init_mmap sample_loader sample_entries State.initial).2)
      0x2800 =
      mmap_get_entry (mmap_init_mmap sample_loader sample_entries State.initial).2 0x2800 :=
  ⟨by decide,
    (lookup_null_in_both_cases
      (mmap_clear (mmap_init_mmap sample_loader sample_entries State.initial).2)
      (mmap_init_mmap sample_loader sample_entries State.initial).2 0x2800 rfl
      (by decide)).2.2⟩

/-- C15 as stated fails: before any init the lookup of `0x2800` returns `NULL`, and on
the successfully built sample table, where no region holds `0x2800`, it returns `NULL`
as well. -/
theorem lookup_distinguishes_counterexample :
    State.initial._mmap_init_done = false ∧
    (mmap_init_mmap sample_loader sample_entries State.initial).1 = 0 ∧
    (mmap_init_mmap sample_loader sample_entries State.initial).2._mmap_init_done = true ∧
    mmap_get_entry State.initial 0x2800 = none ∧
    mmap_get_entry (mmap_init_mmap sample_loader sample_entries State.initial).2 0x2800 = none ∧
    ¬ (mmap_get_entry State.initial 0x2800 ≠
      mmap_get_entry (mmap_init_mmap sample_loader sample_entries State.initial).2 0x2800) := by
  decide

/-- C16 at a failing input: `mmap_init_mmap` stores the `offset` field of a supplied entry
as it is, `0x100` for the mapping of `/lib/b` at `0x3000`, where `begin - file_offset` is
`0x2f00`; `mmap_init_procdir` given the same mapping as a maps line stores `0x2f00`. -/
theorem init_mmap_stores_offset_verbatim :
    (mmap_init_mmap sample_loader [⟨0x3000, 0x4000, 0x100, "/lib/b"⟩] State.initial).1 = 0 ∧
    (mmap_init_mmap sample_loader [⟨0x3000, 0x4000, 0x100, "/lib/b"⟩]
      State.initial).2._memory_map.map (fun e => (e.beg_ip, e.offset)) = [(0x3000, 0x100)] ∧
    (0x3000 + UINTPTR_MOD - 0x100) % UINTPTR_MOD = 0x2f00 ∧
    (mmap_init_procdir (fopen_const ⟨1, [⟨0x3000, 0x4000, 'x', 0x100, 42, "/lib/b"⟩]⟩)
      sample_loader "/proc/self/" State.initial).2._memory_map.map
        (fun e => (e.beg_ip, e.offset)) = [(0x3000, 0x2f00)] := by
  decide

theorem init_contract_of (r : Int × State)
    (hcode : r.1 = 0 ∨ r.1 = -1 ∨ r.1 = -2 ∨ r.1 = -4)
    (hdone : r.2._mmap_init_done = true ↔ r.1 = 0) : init_contract r := by
  refine ⟨?_, hdone.symm, fun hneg a => mmap_get_entry_not_done _ ?_ a⟩
  · rcases hcode with h | h | h | h <;> rw [h] <;> simp
  · cases hd : r.2._mmap_init_done with
    | false => rfl
    | true =>
      have := hdone.1 hd
      omega

theorem init_contract_procdir (fopen : String → Option maps_file) (L : Loader)
    (procdir : String) (s : State) : init_contract (mmap_init_procdir fopen L procdir s) :=
  init_contract_of _ (mmap_init_procdir_code fopen L procdir s)
    (mmap_init_procdir_done_iff fopen L procdir s)

theorem mmap_init_procdir_unavailable (fopen : String → Option maps_file) (L : Loader)
    (procdir : String) (s : State) (h : fopen (procdir ++ "/maps") = none) :
    (mmap_init_procdir fopen L procdir s).1 = -1 := by
  simp [mmap_init_procdir, h]

/-- C17: each of the four inits returns 0 or a negative code, returns 0 exactly when
`_mmap_init_done` is set afterwards, and after a negative code leaves every lookup
returning `NULL`; when the maps file of the three `/proc` variants does not open, the code
is -1. -/
theorem init_code_matches_state (fopen : String → Option maps_file) (L : Loader) (s : State) :
    init_contract (mmap_init_local fopen L s) ∧
    (∀ pid : Int, init_contract (mmap_init_pid fopen L pid s)) ∧
    (∀ procdir : String, init_contract (mmap_init_procdir fopen L procdir s)) ∧
    (∀ entries : List unw_mmap_entry_t, init_contract (mmap_init_mmap L entries s)) ∧
    (fopen ("/proc/self/" ++ "/maps") = none → (mmap_init_local fopen L s).1 = -1) ∧
    (∀ pid : Int, fopen ("/proc/" ++ toString pid ++ "/" ++ "/maps") = none →
      (mmap_init_pid fopen L pid s).1 = -1) ∧
    (∀ procdir : String, fopen (procdir ++ "/maps") = none →
      (mmap_init_procdir fopen L procdir s).1 = -1) :=
  ⟨init_contract_procdir fopen L _ s,
    fun _ => init_contract_procdir fopen L _ s,
    fun procdir => init_contract_procdir fopen L procdir s,
    fun entries => init_contract_of _
      ((mmap_init_mmap_spec L entries s).1.imp_right Or.inr |>.imp_right Or.inr)
      (mmap_init_mmap_done_iff L entries s),
    fun h => mmap_init_procdir_unavailable fopen L _ s h,
    fun _ h => mmap_init_procdir_unavailable fopen L _ s h,
    fun procdir h => mmap_init_procdir_unavailable fopen L procdir s h⟩

/-- C17 at the samples, on a registry that holds a built table: no maps file opens, and
the supplied list names an object without a companion module. -/
theorem init_code_matches_state_witness :
    (mmap_init_local (fun _ => none) sample_loader
      (mmap_init_mmap sample_loader sample_entries State.initial).2).1 = -1 ∧
    (mmap_init_pid (fun _ => none) sample_loader 4242
      (mmap_init_mmap sample_loader sample_entries State.initial).2).1 = -1 ∧
    mmap_get_entry (mmap_init_mmap sample_loader sample_entries_missing
      (mmap_init_mmap sample_loader sample_entries State.initial).2).2 0x1800 = none :=
  ⟨(init_code_matches_state (fun _ => none) sample_loader
      (mmap_init_mmap sample_loader sample_entries State.initial).2).2.2.2.2.1 rfl,
    (init_code_matches_state (fun _ => none) sample_loader
      (mmap_init_mmap sample_loader sample_entries State.initial).2).2.2.2.2.2.1 4242 rfl,
    ((init_code_matches_state (fun _ => none) sample_loader
      (mmap_init_mmap sample_loader sample_entries State.initial).2).2.2.2.1
      sample_entries_missing).2.2 (by decide) 0x1800⟩

end EhElf

/-! ## The companion module -/

namespace EhElf

theorem takeWhile_append_stop {α : Type} (p : α → Bool) (l : List α) (x : α) (r : List α)
    (hl : ∀ a ∈ l, p a = true) (hx : p x = false) :
    (l ++ x :: r).takeWhile p = l := by
  induction l with
  | nil => simp [List.takeWhile, hx]
  | cons a as ih =>
    have ha : p a = true := hl a (List.mem_cons_self _ _)
    rw [List.cons_append, List.takeWhile_cons, ha, if_pos rfl,
      ih (fun b hb => hl b (List.mem_cons_of_mem _ hb))]

/-- The file-name component: `basename` of `dir/name`, where `name` is not empty and
holds no slash, is `name`. -/
theorem basename_dir_file (dir name : List Char) (hne : name ≠ []) (hns : '/' ∉ name) :
    basename (String.mk (dir ++ '/' :: name)) = String.mk name := by
  obtain ⟨front, c, rfl⟩ : ∃ front c, name = front ++ [c] := by
    rcases List.eq_nil_or_concat name with h | ⟨front, c, h⟩
    · exact absurd h hne
    · exact ⟨front, c, by simpa using h⟩
  have hc : c ≠ '/' := by
    intro h
    apply hns
    simp [h]
  have hfront : ∀ a ∈ front, a ≠ '/' := by
    intro a ha h
    apply hns
    rw [← h]
    simp [ha]
  have hrev : (dir ++ '/' :: (front ++ [c])).reverse = c :: (front.reverse ++ '/' :: dir.reverse) := by
    simp
  have hdrop : ((dir ++ '/' :: (front ++ [c])).reverse.dropWhile (fun c => c == '/')) =
      (dir ++ '/' :: (front ++ [c])).reverse := by
    rw [hrev]
    have hc2 : (c == '/') = false := by simpa using hc
    rw [List.dropWhile_cons, hc2]
    rfl
  have htake : ((dir ++ '/' :: (front ++ [c])).reverse.takeWhile (fun c => c != '/')) =
      c :: front.reverse := by
    rw [hrev]
    have h := takeWhile_append_stop (fun c => c != '/') (c :: front.reverse) '/' dir.reverse
      (fun a ha => by
        rcases List.mem_cons.1 ha with rfl | ha
        · simpa using hc
        · simpa using hfront a (List.mem_reverse.1 ha))
      (by simp)
    simpa using h
  unfold basename
  have h1 : (String.mk (dir ++ '/' :: (front ++ [c]))).data ≠ [] := by simp
  simp only [h1, if_false]
  rw [hdrop, List.reverse_reverse]
  simp only [List.append_eq_nil, false_and, and_false, if_false]
  rw [htake]
  simp

/-- C18: resolving a path `p` that is not in the cache makes loader calls of which the
first is `dlopen` of `basename p` followed by `.eh_elf.so`; no other file is opened, and
the only symbol looked up is `_eh_elf`, in the module just opened. For a path `dir/name`
the file opened is `name.eh_elf.so`. -/
theorem resolve_loads_companion_module (L : Loader) (p : String) (s : State)
    (hmiss : find_dl_obj p s._dl_obj_list = none) :
    (∃ calls, (mmap_dlopen_eh_elf L p s).2.dl_trace = s.dl_trace ++ calls ∧
      calls.head? = some (.dlopen (basename p ++ ".eh_elf.so")) ∧
      (∀ file, dl_call.dlopen file ∈ calls → file = basename p ++ ".eh_elf.so") ∧
      (∀ handle symbol, dl_call.dlsym handle symbol ∈ calls →
        symbol = "_eh_elf" ∧ handle = L.dlopen (basename p ++ ".eh_elf.so"))) ∧
    (∀ dir name : List Char, name ≠ [] → '/' ∉ name → p = String.mk (dir ++ '/' :: name) →
      basename p ++ ".eh_elf.so" = String.mk name ++ ".eh_elf.so") := by
  refine ⟨?_, fun dir name hne hns hp => by rw [hp, basename_dir_file dir name hne hns]⟩
  by_cases hopen : L.dlopen (basename p ++ ".eh_elf.so") = 0
  · refine ⟨[.dlopen (basename p ++ ".eh_elf.so")], ?_, rfl, ?_, ?_⟩
    · simp [mmap_dlopen_eh_elf, hmiss, hopen, State.log]
    · intro file hf; simpa using hf
    · intro handle symbol hf; simp at hf
  · by_cases hsym : L.dlsym (L.dlopen (basename p ++ ".eh_elf.so")) "_eh_elf" = 0
    · refine ⟨[.dlopen (basename p ++ ".eh_elf.so"),
        .dlsym (L.dlopen (basename p ++ ".eh_elf.so")) "_eh_elf",
        .dlclose (L.dlopen (basename p ++ ".eh_elf.so"))], ?_, rfl, ?_, ?_⟩
      · simp [mmap_dlopen_eh_elf, hmiss, hopen, hsym, State.log]
      · intro file hf; simpa using hf
      · intro handle symbol hf
        simp only [List.mem_cons, dl_call.dlsym.injEq, List.mem_singleton, reduceCtorEq,
          false_or, or_false, List.not_mem_nil] at hf
        exact ⟨hf.2, hf.1⟩
    · refine ⟨[.dlopen (basename p ++ ".eh_elf.so"),
        .dlsym (L.dlopen (basename p ++ ".eh_elf.so")) "_eh_elf",
        .dlinfo (L.dlopen (basename p ++ ".eh_elf.so"))], ?_, rfl, ?_, ?_⟩
      · simp [mmap_dlopen_eh_elf, hmiss, hopen, hsym, State.log]
      · intro file hf; simpa using hf
      · intro handle symbol hf
        simp only [List.mem_cons, dl_call.dlsym.injEq, List.mem_singleton, reduceCtorEq,
          false_or, or_false, List.not_mem_nil] at hf
        exact ⟨hf.2, hf.1⟩

/-- C18 at a sample: resolving `/usr/lib/libfoo.so.1` on the empty cache opens
`libfoo.so.1.eh_elf.so` and looks up `_eh_elf` in it. -/
theorem resolve_loads_companion_module_witness :
    (mmap_dlopen_eh_elf uniform_loader "/usr/lib/libfoo.so.1" State.initial).2.dl_trace =
      [.dlopen "libfoo.so.1.eh_elf.so", .dlsym 9 "_eh_elf", .dlinfo 9] ∧
    basename "/usr/lib/libfoo.so.1" ++ ".eh_elf.so" = "libfoo.so.1.eh_elf.so" :=
  ⟨by decide,
    (resolve_loads_companion_module uniform_loader "/usr/lib/libfoo.so.1" State.initial rfl).2
      "/usr/lib".data "libfoo.so.1".data (by decide) (by decide) rfl⟩

end EhElf

/-! ## Regions and their handlers -/

namespace EhElf

/-- When the whole table resolves, every entry carries the handle and entry point of the
cache node the scan finds for its name. -/
theorem mmap_dlopen_eh_elfs_attached (L : Loader) (es : List mmap_entry_t) (s : State)
    (h : (mmap_dlopen_eh_elfs L es s).1 = 0) :
    ∀ r ∈ (mmap_dlopen_eh_elfs L es s).2.1,
      ∃ e, find_dl_obj r.object_name (mmap_dlopen_eh_elfs L es s).2.2._dl_obj_list = some e ∧
        r.eh_elf = e.eh_elf ∧ r.fde_func = e.fde_func := by
  induction es generalizing s with
  | nil => simp [mmap_dlopen_eh_elfs]
  | cons x xs ih =>
    unfold mmap_dlopen_eh_elfs at h ⊢
    have hafter := find_dl_obj_after_resolve L x.object_name s
    rcases hr : mmap_dlopen_eh_elf L x.object_name s with ⟨_ | elt, s1⟩
    · rw [hr] at h; simp at h
    · rw [hr] at h hafter
      simp only [] at h hafter ⊢
      intro r hrmem
      rcases List.mem_cons.1 hrmem with rfl | hrmem
      · refine ⟨elt, ?_, rfl, rfl⟩
        exact mmap_dlopen_eh_elfs_cache_inv
          (fun c => find_dl_obj x.object_name c = some elt)
          (fun L q s hs => find_dl_obj_preserved _ elt L q s hs) L xs s1 (hafter elt rfl)
      · exact ih s1 h r hrmem

theorem finish_init_attached (L : Loader) (mem : List mmap_entry_t) (size : Nat) (s : State)
    (h : (finish_init L mem size s).1 = 0) :
    ∀ r ∈ (finish_init L mem size s).2._memory_map,
      ∃ e, find_dl_obj r.object_name (finish_init L mem size s).2._dl_obj_list = some e ∧
        r.eh_elf = e.eh_elf ∧ r.fde_func = e.fde_func := by
  obtain ⟨s2, -, -, -, ht, -, hcache, -, -, h1⟩ := finish_init_eq L mem size s
  have hd : (mmap_dlopen_eh_elfs L (mmap_order_entries (mem.take size)).2 s2).1 = 0 := by
    rcases mmap_dlopen_eh_elfs_code L (mmap_order_entries (mem.take size)).2 s2 with hc | hc
    · exact hc
    · rw [(h1 hc).1] at h; exact absurd h (by decide)
  rw [ht, hcache]
  exact mmap_dlopen_eh_elfs_attached L _ s2 hd

/-- C19: after a build that returned 0, from either source and from any prior state of
the cache, every region of the table carries the module handle and the entry point of the
cache node found for its `object_name`, a node that bears this name; hence two regions
with the same `object_name` have the same `eh_elf` and the same `fde_func`. -/
theorem regions_carry_cached_handler (L : Loader) (s : State) :
    (∀ entries : List unw_mmap_entry_t, (mmap_init_mmap L entries s).1 = 0 →
      (∀ r ∈ (mmap_init_mmap L entries s).2._memory_map,
        ∃ e, find_dl_obj r.object_name (mmap_init_mmap L entries s).2._dl_obj_list = some e ∧
          e.object_name = r.object_name ∧ r.eh_elf = e.eh_elf ∧ r.fde_func = e.fde_func) ∧
      (∀ r1 ∈ (mmap_init_mmap L entries s).2._memory_map,
        ∀ r2 ∈ (mmap_init_mmap L entries s).2._memory_map,
        r1.object_name = r2.object_name →
          r1.eh_elf = r2.eh_elf ∧ r1.fde_func = r2.fde_func)) ∧
    (∀ (fopen : String → Option maps_file) (procdir : String),
      (mmap_init_procdir fopen L procdir s).1 = 0 →
      (∀ r ∈ (mmap_init_procdir fopen L procdir s).2._memory_map,
        ∃ e, find_dl_obj r.object_name
            (mmap_init_procdir fopen L procdir s).2._dl_obj_list = some e ∧
          e.object_name = r.object_name ∧ r.eh_elf = e.eh_elf ∧ r.fde_func = e.fde_func) ∧
      (∀ r1 ∈ (mmap_init_procdir fopen L procdir s).2._memory_map,
        ∀ r2 ∈ (mmap_init_procdir fopen L procdir s).2._memory_map,
        r1.object_name = r2.object_name →
          r1.eh_elf = r2.eh_elf ∧ r1.fde_func = r2.fde_func)) := by
  have key : ∀ (t : List mmap_entry_t) (c : List dl_obj_list_t),
      (∀ r ∈ t, ∃ e, find_dl_obj r.object_name c = some e ∧
        r.eh_elf = e.eh_elf ∧ r.fde_func = e.fde_func) →
      (∀ r ∈ t, ∃ e, find_dl_obj r.object_name c = some e ∧
        e.object_name = r.object_name ∧ r.eh_elf = e.eh_elf ∧ r.fde_func = e.fde_func) ∧
      (∀ r1 ∈ t, ∀ r2 ∈ t, r1.object_name = r2.object_name →
        r1.eh_elf = r2.eh_elf ∧ r1.fde_func = r2.fde_func) := by
    intro t c hatt
    refine ⟨fun r hr => ?_, fun r1 hr1 r2 hr2 hname => ?_⟩
    · obtain ⟨e, he, h1, h2⟩ := hatt r hr
      exact ⟨e, he, find_dl_obj_name _ _ _ he, h1, h2⟩
    · obtain ⟨e1, he1, a1, b1⟩ := hatt r1 hr1
      obtain ⟨e2, he2, a2, b2⟩ := hatt r2 hr2
      rw [hname, he2] at he1
      obtain rfl := Option.some.inj he1
      exact ⟨a1.trans a2.symm, b1.trans b2.symm⟩
  constructor
  · intro entries hok
    rw [mmap_init_mmap_eq] at hok ⊢
    exact key _ _ (finish_init_attached L _ _ _ hok)
  · intro fopen procdir hok
    rcases mmap_init_procdir_cases fopen L procdir s with ⟨-, h1⟩ | ⟨f, -, -, h1, -⟩ |
      ⟨f, mem, cur, -, -, h1, -, -⟩
    · rw [h1] at hok; simp at hok
    · rw [h1] at hok; simp at hok
    · rw [h1] at hok ⊢
      exact key _ _ (finish_init_attached L _ _ _ hok)

/-- C19 at the samples: `/bin/a` was resolved earlier with the sample loader; a build run
with another loader gives the region of `/bin/a` the handle and entry point of the earlier
node, and the region of `/lib/b` those of the node the build creates. -/
theorem regions_carry_cached_handler_witness :
    (mmap_init_mmap uniform_loader sample_entries
      (mmap_dlopen_eh_elf sample_loader "/bin/a" State.initial).2).1 = 0 ∧
    (mmap_init_mmap uniform_loader sample_entries
      (mmap_dlopen_eh_elf sample_loader "/bin/a" State.initial).2).2._memory_map.map
        (fun r => (r.object_name, r.eh_elf, r.fde_func)) =
      [("/bin/a", 7, 107), ("/lib/b", 9, 5)] ∧
    (∃ e, find_dl_obj "/bin/a" (mmap_init_mmap uniform_loader sample_entries
        (mmap_dlopen_eh_elf sample_loader "/bin/a" State.initial).2).2._dl_obj_list = some e ∧
      e.object_name = "/bin/a" ∧ 7 = e.eh_elf ∧ 107 = e.fde_func) ∧
    (mmap_init_procdir (fopen_const sample_maps) sample_loader "/proc/self/"
      State.initial).1 = 0 ∧
    (∃ e, find_dl_obj "/lib/b" (mmap_init_procdir (fopen_const sample_maps) sample_loader
        "/proc/self/" State.initial).2._dl_obj_list = some e ∧
      e.object_name = "/lib/b" ∧ 8 = e.eh_elf ∧ 108 = e.fde_func) :=
  ⟨by decide, by decide,
    ((regions_carry_cached_handler uniform_loader
      (mmap_dlopen_eh_elf sample_loader "/bin/a" State.initial).2).1 sample_entries
      (by decide)).1 ⟨0, 0, 0x1000, 0x2000, "/bin/a", 7, 107⟩ (by decide),
    by decide,
    ((regions_carry_cached_handler sample_loader State.initial).2 (fopen_const sample_maps)
      "/proc/self/" (by decide)).1 ⟨1, 0x2000, 0x3000, 0x4000, "/lib/b", 8, 108⟩ (by decide)⟩

/-! ## Table writes stay in bounds -/

theorem procdir_loop_writes_bound (n : Nat) (ls : List maps_line) (cur : Nat) :
    ∀ i ∈ procdir_loop_writes n ls cur, cur ≤ i ∧ i < n := by
  induction ls generalizing cur with
  | nil => simp [procdir_loop_writes]
  | cons l ls ih =>
    intro i hi
    unfold procdir_loop_writes at hi
    by_cases hc : cur ≥ n
    · simp [hc] at hi
    · simp only [hc, if_false] at hi
      by_cases h1 : l.inode = 0
      · simp only [h1, if_true] at hi
        exact ih cur i hi
      · simp only [h1, if_false] at hi
        by_cases h2 : l.is_x ≠ 'x'
        · rw [if_pos h2] at hi
          exact ih cur i hi
        · rw [if_neg h2] at hi
          rcases List.mem_cons.1 hi with rfl | hi
          · omega
          · have := ih (cur + 1) i hi
            omega

/-- The number of writes of the maps loop is the advance of `cur_entry`. -/
theorem procdir_loop_writes_count (n : Nat) (ls : List maps_line) (mem : List mmap_entry_t)
    (cur : Nat) (mem2 : List mmap_entry_t) (cur2 : Nat)
    (h : procdir_loop n ls mem cur = .ok (mem2, cur2)) :
    cur2 = cur + (procdir_loop_writes n ls cur).length := by
  induction ls generalizing mem cur with
  | nil =>
    simp only [procdir_loop, Except.ok.injEq, Prod.mk.injEq] at h
    simp [procdir_loop_writes, h.2]
  | cons l ls ih =>
    unfold procdir_loop at h
    unfold procdir_loop_writes
    by_cases hc : cur ≥ n
    · simp [hc] at h
    · simp only [hc, if_false] at h ⊢
      by_cases h1 : l.inode = 0
      · simp only [h1, if_true] at h ⊢
        exact ih mem cur h
      · simp only [h1, if_false] at h ⊢
        by_cases h2 : l.is_x ≠ 'x'
        · rw [if_pos h2] at h ⊢
          exact ih mem cur h
        · rw [if_neg h2] at h ⊢
          have := ih _ (cur + 1) h
          simp only [List.length_cons]
          omega

theorem init_mmap_loop_writes_bound (es : List unw_mmap_entry_t) (pos mp : Nat)
    (hmp : mp ≤ pos) :
    ∀ w ∈ init_mmap_loop_writes es pos mp,
      mp ≤ w.1 ∧ w.1 ≤ w.2 ∧ pos ≤ w.2 ∧ w.2 < pos + es.length := by
  induction es generalizing pos mp with
  | nil => simp [init_mmap_loop_writes]
  | cons e es ih =>
    intro w hw
    unfold init_mmap_loop_writes at hw
    by_cases hs : e.special = true
    · simp only [hs, if_true] at hw
      have := ih (pos + 1) mp (by omega) w hw
      simp only [List.length_cons]
      omega
    · simp only [hs, Bool.false_eq_true, if_false] at hw
      rcases List.mem_cons.1 hw with rfl | hw
      · simp only [List.length_cons]
        omega
      · have := ih (pos + 1) (mp + 1) (by omega) w hw
        simp only [List.length_cons]
        omega

/-- The number of writes of the supplied-entry loop is the advance of `mmap_pos`. -/
theorem init_mmap_loop_writes_count (es : List unw_mmap_entry_t) (pos : Nat)
    (mem : List mmap_entry_t) (mp : Nat) :
    (init_mmap_loop es pos mem mp).2 = mp + (init_mmap_loop_writes es pos mp).length := by
  induction es generalizing pos mem mp with
  | nil => simp [init_mmap_loop, init_mmap_loop_writes]
  | cons e es ih =>
    unfold init_mmap_loop init_mmap_loop_writes
    by_cases hs : e.special = true
    · simp only [hs, if_true]
      exact ih _ _ _
    · simp only [hs, Bool.false_eq_true, if_false, List.length_cons]
      rw [ih]
      omega

theorem visited_entries_length_le (entries : List unw_mmap_entry_t) :
    (visited_entries entries).length ≤ entries.length :=
  (List.take_sublist _ _).length_le

/-- C20: in `mmap_init_procdir`, whatever the first-pass count `n` and the lines read,
every write goes to an index `cur_entry < n`, the allocated size, and at end of file
`cur_entry` (the number of writes) is at most `n`, so the assertion before the shrink
holds. In `mmap_init_mmap`, for every list, every write goes to an index `mmap_pos` with
`mmap_pos ≤ pos < count`, and the final `mmap_pos` (the number of writes) is at most
`count`. -/
theorem table_writes_in_bounds :
    (∀ (n : Nat) (lines : List maps_line), ∀ i ∈ procdir_loop_writes n lines 0, i < n) ∧
    (∀ (n : Nat) (lines : List maps_line) (mem : List mmap_entry_t) (cur_entry : Nat),
      procdir_loop n lines (calloc n) 0 = .ok (mem, cur_entry) →
      cur_entry = (procdir_loop_writes n lines 0).length ∧ cur_entry ≤ n ∧ mem.length = n) ∧
    (∀ entries : List unw_mmap_entry_t,
      ∀ w ∈ init_mmap_loop_writes (visited_entries entries) 0 0,
        w.1 ≤ w.2 ∧ w.2 < entries.length) ∧
    (∀ entries : List unw_mmap_entry_t,
      (init_mmap_loop (visited_entries entries) 0 (calloc entries.length) 0).2 =
        (init_mmap_loop_writes (visited_entries entries) 0 0).length ∧
      (init_mmap_loop (visited_entries entries) 0 (calloc entries.length) 0).2 ≤
        entries.length) := by
  refine ⟨fun n lines i hi => (procdir_loop_writes_bound n lines 0 i hi).2,
    fun n lines mem cur h => ?_, fun entries w hw => ?_, fun entries => ?_⟩
  · have h1 := procdir_loop_spec n lines (calloc n) 0 mem cur (by simp [calloc])
      (Nat.zero_le _) h
    have h2 := procdir_loop_writes_count n lines (calloc n) 0 mem cur h
    exact ⟨by omega, h1.2.2.1, h1.1⟩
  · have h1 := init_mmap_loop_writes_bound (visited_entries entries) 0 0 (le_refl _) w hw
    have h2 := visited_entries_length_le entries
    omega
  · have h1 := init_mmap_loop_writes_count (visited_entries entries) 0 (calloc entries.length) 0
    have h2 := (mmap_init_mmap_array entries).1
    have h3 := retained_entries_length_le (visited_entries entries)
    have h4 := visited_entries_length_le entries
    exact ⟨by omega, by omega⟩

/-- C20 at the samples: the maps file that delivers more lines than counted gets one
write, at index 0 of an array of one cell; the sample list gets two writes, at indices 0
and 1 from positions 0 and 2 of three. -/
theorem table_writes_in_bounds_witness :
    procdir_loop_writes sample_maps_overfull.nb_entries sample_maps_overfull.lines 0 = [0] ∧
    (0 : Nat) < sample_maps_overfull.nb_entries ∧
    init_mmap_loop_writes (visited_entries sample_entries) 0 0 = [(0, 0), (1, 2)] ∧
    ((1 : Nat), (2 : Nat)).1 ≤ ((1 : Nat), (2 : Nat)).2 ∧
    ((1 : Nat), (2 : Nat)).2 < sample_entries.length :=
  ⟨by decide,
    table_writes_in_bounds.1 sample_maps_overfull.nb_entries sample_maps_overfull.lines 0
      (by decide),
    by decide,
    (table_writes_in_bounds.2.2.1 sample_entries (1, 2) (by decide)).1,
    (table_writes_in_bounds.2.2.1 sample_entries (1, 2) (by decide)).2⟩

end EhElf
